import Mathlib

/- Verification of the expense-sharing engine in backend.py: the name
   deduplicator generate_unique_name, the fair-share calculator
   compute_fair_shares, and the greedy settlement solver compute_settlements.

   Modelling conventions.  A Python string is a list of Unicode code points
   (List Nat); Python float arithmetic is modelled as exact rational
   arithmetic; Python round is round half to even on the exact value; a
   Python dict is an association list with insertion-ordered keys where an
   overwritten key keeps its position; Python sorted (stable, ascending) is
   insertion sort with a non-strict comparison, which computes the same
   list; a raised ZeroDivisionError is modelled as the result none. -/

/-- A Python string modelled as its list of code points. -/
abbrev Name := List Nat

/-- Whitespace test backing the strip calls: space, tab, newline, carriage return. -/
def isWsCp (c : Nat) : Bool := c == 32 || c == 9 || c == 10 || c == 13

/-- ASCII digit test: the regex digit class on ASCII input. -/
def isDigitCp (c : Nat) : Bool := 48 ≤ c && c ≤ 57

/-- ASCII lowercasing of a code point, the model of the IGNORECASE comparison. -/
def lowerCp (c : Nat) : Nat := if 65 ≤ c && c ≤ 90 then c + 32 else c

/-- Python str.strip: drop leading and trailing whitespace. -/
def pyStrip (s : Name) : Name :=
  ((s.dropWhile isWsCp).reverse.dropWhile isWsCp).reverse

/-- Numeric value of a digit string, as int applied to a regex capture. -/
def digitsToNat (ds : Name) : Nat := ds.foldl (fun a c => a * 10 + (c - 48)) 0

/-- Decimal rendering, fuelled so that it is structurally recursive. -/
def natReprAux : Nat → Nat → Name
  | 0, _ => []
  | fuel + 1, n => if n < 10 then [48 + n] else natReprAux fuel (n / 10) ++ [48 + n % 10]

/-- Decimal rendering of a natural number as code points. -/
def natRepr (n : Nat) : Name := natReprAux (n + 1) n

/-- Case-insensitive equality of two names. -/
def ciEq (a b : Name) : Bool := a.map lowerCp == b.map lowerCp

/-- Split one trailing suffix of the shape space, open paren, digits, close
    paren; this is the unique decomposition found by the lazy base-extraction
    regex on source line 25 of backend.py. -/
def splitSuffix (s : Name) : Name × Option Nat :=
  match s.reverse with
  | c :: rest =>
    if c == 41 then
      if (rest.takeWhile isDigitCp).isEmpty then (s, none)
      else
        match rest.dropWhile isDigitCp with
        | d1 :: d2 :: t =>
          if d1 == 40 && d2 == 32 then
            (t.reverse, some (digitsToNat (rest.takeWhile isDigitCp).reverse))
          else (s, none)
        | _ => (s, none)
    else (s, none)
  | [] => (s, none)

/-- Base extraction, source lines 22 to 26: strip the candidate; the regex dot
    does not cross a newline, so a stripped candidate with an inner newline
    fails to match and is kept whole; otherwise one trailing parenthesised
    number is removed and the captured group is stripped again. -/
def extractBase (raw : Name) : Name :=
  let s := pyStrip raw
  if s.any (fun c => c == 10) then s
  else pyStrip (splitSuffix s).1

/-- One attempted match of the compiled collision pattern (source line 29)
    against a stripped existing name: a full case-insensitive match of the base
    followed by an optional parenthesised digit group.  some none is an
    unsuffixed match; some (some k) is a match whose digit group has value k. -/
def patternMatch (base e : Name) : Option (Option Nat) :=
  if ciEq e base then some none
  else if ciEq (e.take base.length) base then
    match e.drop base.length with
    | c1 :: c2 :: r =>
      if c1 == 32 && c2 == 40 then
        if (r.takeWhile isDigitCp).isEmpty then none
        else if r.dropWhile isDigitCp == [41] then
          some (some (digitsToNat (r.takeWhile isDigitCp)))
        else none
      else none
    | _ => none
  else none

/-- One step of the collision scan, source lines 32 to 39. -/
def scanStep (base : Name) (acc : Nat) (e : Name) : Nat :=
  match patternMatch base (pyStrip e) with
  | none => acc
  | some none => max acc 2
  | some (some k) => max acc (k + 1)

/-- Rendering of a base with a parenthesised counter, source line 44. -/
def withSuffix (base : Name) (m : Nat) : Name := base ++ [32, 40] ++ natRepr m ++ [41]

/-- generate_unique_name, source lines 16 to 44. -/
def generate_unique_name (name : Name) (existing_names : List Name) : Name :=
  let base := extractBase name
  let max_suffix := existing_names.foldl (scanStep base) 1
  if max_suffix = 1 then base else withSuffix base max_suffix

/-- Modelled from the spec, section 4.1 steps 2 and 3: a trimmed existing name
    occupies slot 1 when it equals the base case-insensitively, and slot k when
    it equals the base followed by a parenthesised positive integer k;
    otherwise it occupies no slot. -/
def specMatchSlot (base e : Name) : Option Nat :=
  if ciEq e base then some 1
  else
    match splitSuffix e with
    | (b, some k) => if ciEq b base && decide (1 ≤ k) then some k else none
    | (_, none) => none

/-- Modelled from the spec, section 4.1 step 4: with no collision the base is
    returned unchanged, otherwise the base carries one more than the highest
    occupied slot seen by the scan. -/
def specDedupe (candidate : Name) (existing : List Name) : Name :=
  let base := extractBase candidate
  let slots := existing.filterMap (fun e => specMatchSlot base (pyStrip e))
  match slots with
  | [] => base
  | _ :: _ => withSuffix base (slots.foldl max 1 + 1)

/-- Participant record, source lines 7 to 13. -/
structure Participant where
  name : Name
  amount_spent : ℚ
  weight : ℚ := 1
  note : Name := []
deriving DecidableEq, Repr

/-- Round half to even to an integer: the behaviour of Python round
    on an exactly represented value. -/
def roundHalfEven (x : ℚ) : ℤ :=
  if x - ⌊x⌋ < 1/2 then ⌊x⌋
  else if 1/2 < x - ⌊x⌋ then ⌊x⌋ + 1
  else if ⌊x⌋ % 2 = 0 then ⌊x⌋ else ⌊x⌋ + 1

/-- Python round(x, 2) on an exactly represented value. -/
def round2 (x : ℚ) : ℚ := (roundHalfEven (100 * x) : ℚ) / 100

/-- Sum of the weights, source lines 53 and 69. -/
def totalWeight (ps : List Participant) : ℚ := (ps.map Participant.weight).sum

/-- Sum of the spendings, source lines 54 and 70. -/
def totalSpendings (ps : List Participant) : ℚ := (ps.map Participant.amount_spent).sum

/-- compute_fair_shares, source lines 46 to 65; an output row holds name,
    weight and rounded fair share. -/
def compute_fair_shares (participants : List Participant) : ℚ × ℚ × List (Name × ℚ × ℚ) :=
  let total_weight := totalWeight participants
  let total_spendings := totalSpendings participants
  let normalised_share := if 0 < total_weight then total_spendings / total_weight else 0
  (total_spendings, normalised_share,
    participants.map (fun p => (p.name, p.weight, round2 (normalised_share * p.weight))))

/-- Insertion into a Python dict modelled as an association list: an existing
    key keeps its position and takes the new value, a new key is appended. -/
def dictInsert (k : Name) (v : ℚ) (d : List (Name × ℚ)) : List (Name × ℚ) :=
  if d.any (fun kv => kv.1 == k) then
    d.map (fun kv => if kv.1 == k then (k, v) else kv)
  else d ++ [(k, v)]

/-- A Python dict comprehension keyed by participant name. -/
def pyDict (f : Participant → ℚ) (ps : List Participant) : List (Name × ℚ) :=
  ps.foldl (fun d p => dictInsert p.name (f p) d) []

/-- Dict lookup; every key the code looks up is present. -/
def dictLookup (d : List (Name × ℚ)) (k : Name) : ℚ :=
  match d.find? (fun kv => kv.1 == k) with
  | some kv => kv.2
  | none => 0

/-- The exact per-participant fair share of the settlement solver, source line 71. -/
def exactFairShare (ps : List Participant) (p : Participant) : ℚ :=
  totalSpendings ps * p.weight / totalWeight ps

/-- The fair-share dict of compute_settlements, source line 71. -/
def settlement_fair_shares (ps : List Participant) : List (Name × ℚ) :=
  pyDict (fun p => exactFairShare ps p) ps

/-- The balance dict of compute_settlements, source line 72. -/
def settlement_balances (ps : List Participant) : List (Name × ℚ) :=
  pyDict (fun p => p.amount_spent - dictLookup (settlement_fair_shares ps) p.name) ps

/-- Python sorted with the second component as key: sorted is stable and
    ascending, exactly what insertion sort with a non-strict comparison
    computes. -/
def pySortByMag (l : List (Name × ℚ)) : List (Name × ℚ) :=
  List.insertionSort (fun a b => a.2 ≤ b.2) l

/-- The unsorted debtor entries of source line 75. -/
def rawDebtors (ps : List Participant) : List (Name × ℚ) :=
  ((settlement_balances ps).filter (fun nb => decide (nb.2 < 0))).map (fun nb => (nb.1, -nb.2))

/-- The unsorted creditor entries of source line 76. -/
def rawCreditors (ps : List Participant) : List (Name × ℚ) :=
  (settlement_balances ps).filter (fun nb => decide (0 < nb.2))

/-- Sorted debtor list, source line 75. -/
def debtorsOf (ps : List Participant) : List (Name × ℚ) := pySortByMag (rawDebtors ps)

/-- Sorted creditor list, source line 76. -/
def creditorsOf (ps : List Participant) : List (Name × ℚ) := pySortByMag (rawCreditors ps)

/-- A settlement transaction, the dict built on source line 86. -/
structure Txn where
  From : Name
  To : Name
  Amount : ℚ
deriving DecidableEq, Repr

/-- The greedy two-pointer walk, source lines 79 to 94, fuelled so that it is
    structurally recursive.  The step amount is the minimum of the two head
    magnitudes, so after the subtraction at least one head is exactly zero and
    its pointer advances; when the debtor head stays positive the credit head
    is exactly zero, which is the branch collapse used below. -/
def settleLoopF : Nat → List (Name × ℚ) → List (Name × ℚ) → List Txn
  | 0, _, _ => []
  | _ + 1, [], _ => []
  | _ + 1, _ :: _, [] => []
  | fuel + 1, (d, debt) :: ds, (c, credit) :: cs =>
    let amount := min debt credit
    let t : Txn := ⟨d, c, round2 amount⟩
    if debt - amount = 0 then
      if credit - amount = 0 then t :: settleLoopF fuel ds cs
      else t :: settleLoopF fuel ds ((c, credit - amount) :: cs)
    else t :: settleLoopF fuel ((d, debt - amount) :: ds) cs

/-- The greedy walk at its natural fuel: each step removes at least one entry,
    so the combined length bounds the number of steps. -/
def settleLoop (ds cs : List (Name × ℚ)) : List Txn :=
  settleLoopF (ds.length + cs.length) ds cs

/-- compute_settlements, source lines 67 to 96.  none models the
    ZeroDivisionError raised on source line 71 when the participant list is
    nonempty and the total weight is zero, since the dict comprehension then
    evaluates the division by the total weight. -/
def compute_settlements (participants : List Participant) : Option (List Txn) :=
  if participants ≠ [] ∧ totalWeight participants = 0 then none
  else some (settleLoop (debtorsOf participants) (creditorsOf participants))

/-- Sum of the emitted amounts naming a given payer. -/
def txnFromSum (nm : Name) (ts : List Txn) : ℚ :=
  ((ts.filter (fun t => t.From == nm)).map Txn.Amount).sum

/-- Sum of the emitted amounts naming a given receiver. -/
def txnToSum (nm : Name) (ts : List Txn) : ℚ :=
  ((ts.filter (fun t => t.To == nm)).map Txn.Amount).sum

/-- Number of emitted transactions naming a given payer. -/
def countFrom (nm : Name) (ts : List Txn) : Nat := (ts.filter (fun t => t.From == nm)).length

/-- Number of emitted transactions naming a given receiver. -/
def countTo (nm : Name) (ts : List Txn) : Nat := (ts.filter (fun t => t.To == nm)).length

/-- Balance recorded for a name by the settlement solver. -/
def balanceOf (ps : List Participant) (nm : Name) : ℚ := dictLookup (settlement_balances ps) nm

/-- Sum of the magnitudes recorded under a given name. -/
def keyTotal (nm : Name) (l : List (Name × ℚ)) : ℚ :=
  ((l.filter (fun x => x.1 == nm)).map Prod.snd).sum

/-- Iterated deduplication of one base against the accumulating list of
    previously returned names. -/
def dedupeSeq (base : Name) : Nat → List Name
  | 0 => []
  | n + 1 => dedupeSeq base n ++ [generate_unique_name base (dedupeSeq base n)]

/-- Expected i-th element of the iterated deduplication sequence. -/
def seqElem (base : Name) (i : Nat) : Name := if i = 0 then base else withSuffix base (i + 1)

/-- Last participant record carrying a given name. -/
def lastNamed (ps : List Participant) (nm : Name) : Option Participant :=
  (ps.filter (fun p => p.name == nm)).getLast?

/- ------------------------------------------------------------------ -/
/- Helper lemmas                                                      -/
/- ------------------------------------------------------------------ -/

lemma sum_map_sub {α : Type} (l : List α) (f g : α → ℚ) :
    (l.map fun x => f x - g x).sum = (l.map f).sum - (l.map g).sum := by
  induction l with
  | nil => simp
  | cons x xs ih => simp only [List.map_cons, List.sum_cons, ih]; ring

lemma roundHalfEven_char (x : ℚ) :
    |x - (roundHalfEven x : ℚ)| ≤ 1/2 ∧
    (|x - (roundHalfEven x : ℚ)| = 1/2 → 2 ∣ roundHalfEven x) := by
  have h0 : ((⌊x⌋ : ℤ) : ℚ) ≤ x := Int.floor_le x
  have h1 : x < ⌊x⌋ + 1 := Int.lt_floor_add_one x
  unfold roundHalfEven
  split_ifs with hlt hgt hev
  · constructor
    · rw [abs_of_nonneg (by linarith)]; linarith
    · intro habs
      rw [abs_of_nonneg (by linarith)] at habs
      linarith
  · push_cast
    constructor
    · rw [abs_of_nonpos (by linarith)]; linarith
    · intro habs
      rw [abs_of_nonpos (by linarith)] at habs
      linarith
  · have hx : x - ⌊x⌋ = 1/2 := le_antisymm (not_lt.1 hgt) (not_lt.1 hlt)
    constructor
    · rw [abs_of_nonneg (by linarith)]; linarith
    · intro _
      exact Int.dvd_of_emod_eq_zero hev
  · have hx : x - ⌊x⌋ = 1/2 := le_antisymm (not_lt.1 hgt) (not_lt.1 hlt)
    push_cast
    constructor
    · rw [abs_of_nonpos (by linarith)]; linarith
    · intro _
      have h2 := Int.emod_two_eq ⌊x⌋
      omega

lemma round2_char (x : ℚ) :
    ∃ z : ℤ, round2 x = (z : ℚ)/100 ∧ |100 * x - (z : ℚ)| ≤ 1/2 ∧
      (|100 * x - (z : ℚ)| = 1/2 → 2 ∣ z) :=
  ⟨roundHalfEven (100 * x), rfl, (roundHalfEven_char (100 * x)).1,
    (roundHalfEven_char (100 * x)).2⟩

lemma round2_err (x : ℚ) : |round2 x - x| ≤ 1/200 := by
  obtain ⟨z, hz, hb, -⟩ := round2_char x
  rw [hz]
  have heq : (z : ℚ)/100 - x = -((100 * x - z)/100) := by ring
  rw [heq, abs_neg, abs_div, abs_of_pos (by norm_num : (0:ℚ) < 100)]
  linarith

/- ------------------------------------------------------------------ -/
/- C9: empty participant list                                          -/
/- ------------------------------------------------------------------ -/

/-- C9: on the empty participant list, compute_fair_shares returns zero totals
    and an empty per-participant sequence, and compute_settlements returns the
    empty transaction sequence; neither operation fails (in particular no
    division is attempted, so no error is modelled). -/
theorem C9_empty_inputs :
    compute_fair_shares [] = (0, 0, []) ∧ compute_settlements [] = some [] := by
  constructor <;> with_unfolding_all decide

/- ------------------------------------------------------------------ -/
/- C1: zero total weight in the settlement solver                      -/
/- ------------------------------------------------------------------ -/

/-- C1 counterexample: for the one-participant list with weight 0 the claim
    predicts a normal return (fair share 0, balance equal to amount_spent, and
    the settlement of those balances, here the empty list); the code instead
    raises ZeroDivisionError on source line 71, modelled as none. -/
theorem C1_zero_weight_cex :
    compute_settlements [⟨[65], 5, 0, []⟩] = none := by
  with_unfolding_all decide

/-- C1 as amended: for every nonempty participant list with total weight 0,
    compute_settlements fails with the unguarded division by zero of source
    line 71 (modelled as none) instead of returning any settlement. -/
theorem C1_zero_weight_error (ps : List Participant) (h1 : ps ≠ [])
    (h2 : totalWeight ps = 0) : compute_settlements ps = none := by
  simp [compute_settlements, h1, h2]

theorem C1_zero_weight_witness :
    compute_settlements [⟨[65], 3, 1, []⟩, ⟨[66], 4, -1, []⟩] = none :=
  C1_zero_weight_error _ (by decide) (by with_unfolding_all decide)

/- ------------------------------------------------------------------ -/
/- C7: exact balances sum to zero                                      -/
/- ------------------------------------------------------------------ -/

lemma exact_balance_sum (ps : List Participant) (h : 0 < totalWeight ps) :
    (ps.map fun p => p.amount_spent - exactFairShare ps p).sum = 0 := by
  rw [sum_map_sub]
  have hshare : (ps.map fun p => exactFairShare ps p).sum = totalSpendings ps := by
    have hcongr : (ps.map fun p => exactFairShare ps p)
        = ps.map fun p => (totalSpendings ps / totalWeight ps) * p.weight := by
      apply List.map_congr_left
      intro p _
      unfold exactFairShare
      ring
    rw [hcongr, List.sum_map_mul_left]
    show totalSpendings ps / totalWeight ps * totalWeight ps = totalSpendings ps
    exact div_mul_cancel₀ _ (ne_of_gt h)
  rw [hshare]
  simp [totalSpendings]

/-- C7: for every participant list with positive total weight, the sum over all
    participants of amount_spent minus the exact (unrounded) fair share of
    source line 71 is exactly zero in exact arithmetic. -/
theorem C7_exact_balances_zero_sum (ps : List Participant)
    (h : 0 < totalWeight ps) :
    (ps.map fun p => p.amount_spent - exactFairShare ps p).sum = 0 :=
  exact_balance_sum ps h

theorem C7_zero_sum_witness :
    (([⟨[65], 100, 1, []⟩, ⟨[66], 0, 1, []⟩] : List Participant).map
      fun p => p.amount_spent - exactFairShare [⟨[65], 100, 1, []⟩, ⟨[66], 0, 1, []⟩] p).sum = 0 :=
  C7_exact_balances_zero_sum _ (by with_unfolding_all decide)

/- ------------------------------------------------------------------ -/
/- C5: fair-share rows                                                 -/
/- ------------------------------------------------------------------ -/

/-- C5: compute_fair_shares returns the total spend, the guarded unit share,
    and one row per participant in input order carrying the participant's name
    and weight together with the unit share times the weight rounded to two
    decimals; the rounding is characterised as the nearest multiple of one
    hundredth with ties broken to an even numerator, i.e. a single consistent
    round-half-to-even mode. -/
theorem C5_fair_share_rows (ps : List Participant) :
    (compute_fair_shares ps).1 = totalSpendings ps ∧
    (compute_fair_shares ps).2.1 =
      (if 0 < totalWeight ps then totalSpendings ps / totalWeight ps else 0) ∧
    List.Forall₂
      (fun (row : Name × ℚ × ℚ) (p : Participant) =>
        row.1 = p.name ∧ row.2.1 = p.weight ∧
        ∃ z : ℤ, row.2.2 = (z : ℚ)/100 ∧
          |100 * ((compute_fair_shares ps).2.1 * p.weight) - (z : ℚ)| ≤ 1/2 ∧
          (|100 * ((compute_fair_shares ps).2.1 * p.weight) - (z : ℚ)| = 1/2 → 2 ∣ z))
      (compute_fair_shares ps).2.2 ps := by
  refine ⟨rfl, rfl, ?_⟩
  have h22 : (compute_fair_shares ps).2.2 = ps.map (fun p =>
      (p.name, p.weight, round2 ((compute_fair_shares ps).2.1 * p.weight))) := rfl
  rw [h22, List.forall₂_map_left_iff]
  refine List.forall₂_same.2 ?_
  intro p _
  exact ⟨rfl, rfl, round2_char _⟩

/- ------------------------------------------------------------------ -/
/- C6: solver structure                                                -/
/- ------------------------------------------------------------------ -/

instance : IsTotal (Name × ℚ) (fun a b => a.2 ≤ b.2) := ⟨fun _ _ => le_total _ _⟩

instance : IsTrans (Name × ℚ) (fun a b => a.2 ≤ b.2) := ⟨fun _ _ _ h1 h2 => le_trans h1 h2⟩

lemma pySortByMag_sorted (l : List (Name × ℚ)) :
    List.Sorted (fun a b : Name × ℚ => a.2 ≤ b.2) (pySortByMag l) :=
  List.sorted_insertionSort _ l

lemma pySortByMag_perm (l : List (Name × ℚ)) : (pySortByMag l).Perm l :=
  List.perm_insertionSort _ l

/-- C6: the debtor list is the negative-balance entries sorted ascending by
    debt magnitude, the creditor list is the positive-balance entries sorted
    ascending by credit magnitude, every successful run of compute_settlements
    returns exactly the emission order of the two-pointer walk started at the
    heads of those sorted lists (no further sorting), and the walk terminates
    as soon as either list is exhausted. -/
theorem C6_solver_structure (ps : List Participant) :
    List.Sorted (fun a b : Name × ℚ => a.2 ≤ b.2) (debtorsOf ps) ∧
    (debtorsOf ps).Perm (rawDebtors ps) ∧
    List.Sorted (fun a b : Name × ℚ => a.2 ≤ b.2) (creditorsOf ps) ∧
    (creditorsOf ps).Perm (rawCreditors ps) ∧
    (compute_settlements ps = none ∨
      compute_settlements ps = some (settleLoop (debtorsOf ps) (creditorsOf ps))) ∧
    (∀ cs, settleLoop [] cs = []) ∧
    (∀ x ds, settleLoop (x :: ds) [] = []) := by
  refine ⟨pySortByMag_sorted _, pySortByMag_perm _, pySortByMag_sorted _,
    pySortByMag_perm _, ?_, ?_, ?_⟩
  · by_cases h : ps ≠ [] ∧ totalWeight ps = 0
    · left; simp [compute_settlements, h]
    · right; simp [compute_settlements, h]
  · intro cs; cases cs <;> rfl
  · intro x ds; rfl

/- ------------------------------------------------------------------ -/
/- Dict lemmas                                                         -/
/- ------------------------------------------------------------------ -/

lemma find?_map_replace_ne {k k' : Name} (hk' : k' ≠ k) (v : ℚ) (d : List (Name × ℚ)) :
    (d.map (fun kv => if kv.1 == k then (k, v) else kv)).find? (fun kv => kv.1 == k')
      = d.find? (fun kv => kv.1 == k') := by
  induction d with
  | nil => rfl
  | cons x xs ih =>
    simp only [List.map_cons]
    by_cases hx : x.1 = k
    · rw [if_pos (by simpa using hx)]
      rw [List.find?_cons_of_neg _ (by simp [Ne.symm hk']),
        List.find?_cons_of_neg _ (by simp [hx, Ne.symm hk']), ih]
    · rw [if_neg (by simpa using hx)]
      by_cases hx' : x.1 = k'
      · rw [List.find?_cons_of_pos _ (by simp [hx']), List.find?_cons_of_pos _ (by simp [hx'])]
      · rw [List.find?_cons_of_neg _ (by simp [hx']), List.find?_cons_of_neg _ (by simp [hx']), ih]

lemma find?_map_replace_eq {k : Name} (v : ℚ) (d : List (Name × ℚ))
    (hk : d.any (fun kv => kv.1 == k) = true) :
    (d.map (fun kv => if kv.1 == k then (k, v) else kv)).find? (fun kv => kv.1 == k)
      = some (k, v) := by
  induction d with
  | nil => simp at hk
  | cons x xs ih =>
    simp only [List.map_cons]
    by_cases hx : x.1 = k
    · rw [if_pos (by simpa using hx)]
      rw [List.find?_cons_of_pos _ (by simp)]
    · rw [if_neg (by simpa using hx)]
      rw [List.find?_cons_of_neg _ (by simp [hx])]
      apply ih
      simpa [List.any_cons, hx] using hk

lemma dictLookup_dictInsert (k k' : Name) (v : ℚ) (d : List (Name × ℚ)) :
    dictLookup (dictInsert k v d) k' = if k' = k then v else dictLookup d k' := by
  unfold dictInsert dictLookup
  by_cases hk : d.any (fun kv => kv.1 == k) = true
  · rw [if_pos hk]
    by_cases hk' : k' = k
    · subst hk'
      rw [find?_map_replace_eq v d hk]
      simp
    · rw [find?_map_replace_ne hk' v d, if_neg hk']
  · rw [if_neg hk, List.find?_append]
    by_cases hk' : k' = k
    · subst hk'
      have hnone : d.find? (fun kv => kv.1 == k') = none := by
        rw [List.find?_eq_none]
        intro kv hkv
        simp only [beq_iff_eq]
        intro heq
        exact hk (List.any_eq_true.2 ⟨kv, hkv, by simp [heq]⟩)
      rw [hnone]
      simp
    · have hne : k ≠ k' := fun hh => hk' hh.symm
      cases hfd : d.find? (fun kv => kv.1 == k') with
      | some kv => simp [hfd, hk']
      | none => simp [hfd, hk', hne]

lemma pyDict_concat (f : Participant → ℚ) (ps : List Participant) (p : Participant) :
    pyDict f (ps ++ [p]) = dictInsert p.name (f p) (pyDict f ps) := by
  unfold pyDict
  rw [List.foldl_append]
  rfl

lemma lastNamed_concat (ps : List Participant) (p : Participant) (nm : Name) :
    lastNamed (ps ++ [p]) nm = if p.name = nm then some p else lastNamed ps nm := by
  unfold lastNamed
  rw [List.filter_append]
  by_cases h : p.name = nm
  · rw [if_pos h]
    have hf : List.filter (fun r => r.name == nm) [p] = [p] := by simp [List.filter, h]
    rw [hf, List.getLast?_concat]
  · rw [if_neg h]
    have hf : List.filter (fun r => r.name == nm) [p] = [] := by
      simp [List.filter, beq_eq_false_iff_ne.2 h]
    rw [hf, List.append_nil]

lemma dictLookup_pyDict_lastNamed (f : Participant → ℚ) (ps : List Participant)
    (nm : Name) (q : Participant) (h : lastNamed ps nm = some q) :
    dictLookup (pyDict f ps) nm = f q := by
  induction ps using List.reverseRecOn with
  | nil => simp [lastNamed] at h
  | append_singleton l p ih =>
    rw [pyDict_concat, dictLookup_dictInsert]
    rw [lastNamed_concat] at h
    by_cases hp : p.name = nm
    · rw [if_pos hp] at h
      injection h with h
      subst h
      rw [if_pos hp.symm]
    · rw [if_neg hp] at h
      rw [if_neg (fun hh => hp hh.symm)]
      exact ih h

lemma lastNamed_props (ps : List Participant) (nm : Name) (q : Participant)
    (h : lastNamed ps nm = some q) : q.name = nm ∧ q ∈ ps := by
  unfold lastNamed at h
  have hmem := List.mem_of_getLast?_eq_some h
  have h1 := List.of_mem_filter hmem
  have h2 := List.mem_of_mem_filter hmem
  exact ⟨by simpa using h1, h2⟩

lemma dictInsert_keys (k : Name) (v : ℚ) (d : List (Name × ℚ)) :
    (dictInsert k v d).map Prod.fst =
      if d.any (fun kv => kv.1 == k) then d.map Prod.fst else d.map Prod.fst ++ [k] := by
  unfold dictInsert
  by_cases hk : d.any (fun kv => kv.1 == k) = true
  · rw [if_pos hk, if_pos hk, List.map_map]
    apply List.map_congr_left
    intro kv _
    by_cases h : kv.1 = k <;> simp [h]
  · rw [if_neg hk, if_neg hk]
    simp

lemma any_key_iff (d : List (Name × ℚ)) (k : Name) :
    d.any (fun kv => kv.1 == k) = true ↔ k ∈ d.map Prod.fst := by
  rw [List.any_eq_true]
  constructor
  · rintro ⟨kv, hkv, hb⟩
    exact List.mem_map.2 ⟨kv, hkv, by simpa using hb⟩
  · rintro hmem
    obtain ⟨kv, hkv, hfst⟩ := List.mem_map.1 hmem
    exact ⟨kv, hkv, by simp [hfst]⟩

lemma pyDict_keys_nodup (f : Participant → ℚ) (ps : List Participant) :
    ((pyDict f ps).map Prod.fst).Nodup := by
  suffices h : ∀ d : List (Name × ℚ), (d.map Prod.fst).Nodup →
      ((ps.foldl (fun d p => dictInsert p.name (f p) d) d).map Prod.fst).Nodup by
    exact h [] (by simp)
  induction ps with
  | nil => intro d hd; simpa using hd
  | cons p ps ih =>
    intro d hd
    simp only [List.foldl_cons]
    apply ih
    rw [dictInsert_keys]
    by_cases hk : d.any (fun kv => kv.1 == p.name) = true
    · rw [if_pos hk]; exact hd
    · rw [if_neg hk]
      rw [List.nodup_append]
      refine ⟨hd, List.nodup_singleton _, ?_⟩
      intro a ha hb
      rw [List.mem_singleton] at hb
      subst hb
      exact hk ((any_key_iff d p.name).2 ha)

lemma pyDict_keys_mem (f : Participant → ℚ) (ps : List Participant) :
    ∀ nm, nm ∈ (pyDict f ps).map Prod.fst ↔ nm ∈ ps.map Participant.name := by
  induction ps using List.reverseRecOn with
  | nil => intro nm; simp [pyDict]
  | append_singleton l p ih =>
    intro nm
    rw [pyDict_concat, dictInsert_keys]
    by_cases hk : (pyDict f l).any (fun kv => kv.1 == p.name) = true
    · rw [if_pos hk]
      have hp : p.name ∈ l.map Participant.name := (ih p.name).1 ((any_key_iff _ _).1 hk)
      rw [ih nm]
      simp only [List.map_append, List.map_cons, List.map_nil, List.mem_append,
        List.mem_singleton]
      constructor
      · exact Or.inl
      · rintro (h | h)
        · exact h
        · exact h ▸ hp
    · rw [if_neg hk]
      simp [ih nm]

/- ------------------------------------------------------------------ -/
/- C10: duplicate names                                                -/
/- ------------------------------------------------------------------ -/

/-- C10: the settlement solver keys its balance map by name, so the map keys
    are duplicate-free, a name appears among the keys exactly when some record
    carries it, and the surviving balance entry of a name is computed from the
    last record with that name (its amount_spent minus the exact fair share of
    its weight), while the totals still sum over every record including
    duplicates. -/
theorem C10_duplicate_names (ps : List Participant) (nm : Name) (q : Participant)
    (_hw : 0 < totalWeight ps) (hlast : lastNamed ps nm = some q) :
    ((settlement_balances ps).map Prod.fst).Nodup ∧
    (nm ∈ (settlement_balances ps).map Prod.fst ↔ nm ∈ ps.map Participant.name) ∧
    dictLookup (settlement_balances ps) nm
      = q.amount_spent - totalSpendings ps * q.weight / totalWeight ps ∧
    totalSpendings ps = (ps.map Participant.amount_spent).sum ∧
    totalWeight ps = (ps.map Participant.weight).sum := by
  obtain ⟨hqname, -⟩ := lastNamed_props ps nm q hlast
  refine ⟨pyDict_keys_nodup _ _, pyDict_keys_mem _ _ _, ?_, rfl, rfl⟩
  unfold settlement_balances
  rw [dictLookup_pyDict_lastNamed _ _ _ _ hlast]
  have hfair : dictLookup (settlement_fair_shares ps) q.name
      = exactFairShare ps q := by
    unfold settlement_fair_shares
    exact dictLookup_pyDict_lastNamed _ _ _ _ (hqname ▸ hlast)
  rw [hfair]
  rfl

theorem C10_duplicate_names_witness :
    ((settlement_balances [⟨[65], 0, 1, []⟩, ⟨[65], 30, 1, []⟩, ⟨[66], 0, 1, []⟩]).map
      Prod.fst).Nodup ∧
    ([65] ∈ (settlement_balances [⟨[65], 0, 1, []⟩, ⟨[65], 30, 1, []⟩, ⟨[66], 0, 1, []⟩]).map
      Prod.fst ↔
      [65] ∈ ([⟨[65], 0, 1, []⟩, ⟨[65], 30, 1, []⟩, ⟨[66], 0, 1, []⟩] :
        List Participant).map Participant.name) ∧
    dictLookup (settlement_balances [⟨[65], 0, 1, []⟩, ⟨[65], 30, 1, []⟩, ⟨[66], 0, 1, []⟩]) [65]
      = (30 : ℚ) - totalSpendings [⟨[65], 0, 1, []⟩, ⟨[65], 30, 1, []⟩, ⟨[66], 0, 1, []⟩] * 1 /
        totalWeight [⟨[65], 0, 1, []⟩, ⟨[65], 30, 1, []⟩, ⟨[66], 0, 1, []⟩] ∧
    totalSpendings [⟨[65], 0, 1, []⟩, ⟨[65], 30, 1, []⟩, ⟨[66], 0, 1, []⟩]
      = (([⟨[65], 0, 1, []⟩, ⟨[65], 30, 1, []⟩, ⟨[66], 0, 1, []⟩] :
          List Participant).map Participant.amount_spent).sum ∧
    totalWeight [⟨[65], 0, 1, []⟩, ⟨[65], 30, 1, []⟩, ⟨[66], 0, 1, []⟩]
      = (([⟨[65], 0, 1, []⟩, ⟨[65], 30, 1, []⟩, ⟨[66], 0, 1, []⟩] :
          List Participant).map Participant.weight).sum :=
  C10_duplicate_names [⟨[65], 0, 1, []⟩, ⟨[65], 30, 1, []⟩, ⟨[66], 0, 1, []⟩] [65]
    ⟨[65], 30, 1, []⟩ (by with_unfolding_all decide) (by with_unfolding_all decide)

/- ------------------------------------------------------------------ -/
/- String helper lemmas                                                -/
/- ------------------------------------------------------------------ -/

lemma dropWhile_idem (p : Nat → Bool) (l : Name) :
    (l.dropWhile p).dropWhile p = l.dropWhile p := by
  induction l with
  | nil => rfl
  | cons x xs ih =>
    by_cases h : p x = true
    · rw [List.dropWhile_cons_of_pos h, ih]
    · rw [List.dropWhile_cons_of_neg (by simpa using h),
        List.dropWhile_cons_of_neg (by simpa using h)]

lemma dropWhile_eq_self_of_head? (p : Nat → Bool) (l : Name)
    (h : ∀ x, l.head? = some x → p x = false) : l.dropWhile p = l := by
  cases l with
  | nil => rfl
  | cons x xs => exact List.dropWhile_cons_of_neg (by simp [h x rfl])

lemma pyStrip_idem (s : Name) : pyStrip (pyStrip s) = pyStrip s := by
  unfold pyStrip
  have hB : List.dropWhile isWsCp (((s.dropWhile isWsCp).reverse.dropWhile isWsCp).reverse)
      = ((s.dropWhile isWsCp).reverse.dropWhile isWsCp).reverse := by
    apply dropWhile_eq_self_of_head?
    intro x hx
    rw [List.head?_reverse] at hx
    have hB_ne : (s.dropWhile isWsCp).reverse.dropWhile isWsCp ≠ [] := by
      intro hnil
      rw [hnil] at hx
      simp at hx
    obtain ⟨pre, hpre⟩ := List.dropWhile_suffix (l := (s.dropWhile isWsCp).reverse) isWsCp
    have hlast : ((s.dropWhile isWsCp).reverse).getLast? = some x := by
      rw [← hpre, List.getLast?_append, hx]
      rfl
    rw [List.getLast?_reverse] at hlast
    have hnot := List.head?_dropWhile_not isWsCp s
    rw [hlast] at hnot
    exact hnot
  rw [hB, List.reverse_reverse, dropWhile_idem]

lemma head_not_ws_of_pyStrip_fixed {x : Nat} {xs : Name} (h : pyStrip (x :: xs) = x :: xs) :
    isWsCp x = false := by
  by_contra hws
  rw [Bool.not_eq_false] at hws
  have hlen : (pyStrip (x :: xs)).length ≤ xs.length := by
    unfold pyStrip
    rw [List.dropWhile_cons_of_pos hws]
    calc (((xs.dropWhile isWsCp).reverse.dropWhile isWsCp).reverse).length
        = ((xs.dropWhile isWsCp).reverse.dropWhile isWsCp).length := List.length_reverse _
      _ ≤ (xs.dropWhile isWsCp).reverse.length :=
          (List.dropWhile_suffix isWsCp).sublist.length_le
      _ = (xs.dropWhile isWsCp).length := List.length_reverse _
      _ ≤ xs.length := (List.dropWhile_suffix isWsCp).sublist.length_le
  rw [h] at hlen
  simp at hlen

lemma pyStrip_sandwich {x y : Nat} (xs : Name) (hx : isWsCp x = false) (hy : isWsCp y = false) :
    pyStrip (x :: (xs ++ [y])) = x :: (xs ++ [y]) := by
  unfold pyStrip
  rw [List.dropWhile_cons_of_neg (by simp [hx])]
  have hrev : (x :: (xs ++ [y])).reverse = y :: (xs.reverse ++ [x]) := by simp
  rw [hrev, List.dropWhile_cons_of_neg (by simp [hy]), ← hrev, List.reverse_reverse]

lemma extractBase_stripped (raw : Name) : pyStrip (extractBase raw) = extractBase raw := by
  simp only [extractBase]
  split_ifs <;> exact pyStrip_idem _

lemma lowerCp_eq_self_of_lt {c : Nat} (hc : c < 65) : lowerCp c = c := by
  unfold lowerCp
  split_ifs with h
  · simp only [Bool.and_eq_true, decide_eq_true_eq] at h
    omega
  · rfl

lemma lowerCp_eq_of_nonalpha {a b : Nat} (hab : lowerCp a = b) (hb : b < 97 ∨ 122 < b) :
    a = b := by
  unfold lowerCp at hab
  split_ifs at hab with h
  · simp only [Bool.and_eq_true, decide_eq_true_eq] at h
    omega
  · exact hab

lemma map_lowerCp_eq_of_nonalpha {xs ys : Name} (h : xs.map lowerCp = ys)
    (hys : ∀ y ∈ ys, y < 97 ∨ 122 < y) : xs = ys := by
  induction xs generalizing ys with
  | nil => rw [List.map_nil] at h; exact h
  | cons x xs ih =>
    cases ys with
    | nil => simp at h
    | cons y ys =>
      rw [List.map_cons, List.cons.injEq] at h
      obtain ⟨h1, h2⟩ := h
      rw [List.cons.injEq]
      exact ⟨lowerCp_eq_of_nonalpha h1 (hys y (List.mem_cons_self y ys)),
        ih h2 (fun z hz => hys z (List.mem_cons_of_mem _ hz))⟩

lemma ciEq_refl (a : Name) : ciEq a a = true := by simp [ciEq]

lemma ciEq_iff (a b : Name) : ciEq a b = true ↔ a.map lowerCp = b.map lowerCp := by
  simp [ciEq]

lemma ciEq_symm {a b : Name} (h : ciEq a b = true) : ciEq b a = true :=
  (ciEq_iff b a).2 ((ciEq_iff a b).1 h).symm

lemma ciEq_length {a b : Name} (h : ciEq a b = true) : a.length = b.length := by
  rw [ciEq_iff] at h
  calc a.length = (a.map lowerCp).length := (List.length_map a lowerCp).symm
    _ = (b.map lowerCp).length := by rw [h]
    _ = b.length := List.length_map b lowerCp

lemma digitsToNat_concat (ds : Name) (c : Nat) :
    digitsToNat (ds ++ [c]) = digitsToNat ds * 10 + (c - 48) := by
  unfold digitsToNat
  rw [List.foldl_append]
  rfl

lemma natReprAux_spec : ∀ fuel n, n < 10 ^ (fuel + 1) →
    (∀ c ∈ natReprAux (fuel + 1) n, isDigitCp c = true) ∧ natReprAux (fuel + 1) n ≠ [] ∧
      digitsToNat (natReprAux (fuel + 1) n) = n := by
  intro fuel
  induction fuel with
  | zero =>
    intro n h
    rw [pow_one] at h
    simp only [natReprAux, if_pos h]
    refine ⟨?_, by simp, ?_⟩
    · intro c hc
      rw [List.mem_singleton] at hc
      subst hc
      unfold isDigitCp
      simp only [Bool.and_eq_true, decide_eq_true_eq]
      omega
    · unfold digitsToNat
      simp only [List.foldl_cons, List.foldl_nil]
      omega
  | succ f ih =>
    intro n h
    by_cases h10 : n < 10
    · simp only [natReprAux, if_pos h10]
      refine ⟨?_, by simp, ?_⟩
      · intro c hc
        rw [List.mem_singleton] at hc
        subst hc
        unfold isDigitCp
        simp only [Bool.and_eq_true, decide_eq_true_eq]
        omega
      · unfold digitsToNat
        simp only [List.foldl_cons, List.foldl_nil]
        omega
    · have hdiv : n / 10 < 10 ^ (f + 1) := by
        rw [Nat.div_lt_iff_lt_mul (by norm_num)]
        calc n < 10 ^ (f + 1 + 1) := h
          _ = 10 ^ (f + 1) * 10 := by rw [pow_succ]
      obtain ⟨hdig, hne, hval⟩ := ih (n / 10) hdiv
      have hstep : natReprAux (f + 1 + 1) n
          = natReprAux (f + 1) (n / 10) ++ [48 + n % 10] := by
        simp only [natReprAux, if_neg h10]
      rw [hstep]
      refine ⟨?_, by simp, ?_⟩
      · intro c hc
        rw [List.mem_append] at hc
        rcases hc with hc | hc
        · exact hdig c hc
        · rw [List.mem_singleton] at hc
          subst hc
          unfold isDigitCp
          simp only [Bool.and_eq_true, decide_eq_true_eq]
          omega
      · rw [digitsToNat_concat, hval]
        omega

lemma natRepr_digits (n : Nat) : ∀ c ∈ natRepr n, isDigitCp c = true :=
  (natReprAux_spec n n (lt_of_lt_of_le (Nat.lt_pow_self (by norm_num) n)
    (Nat.pow_le_pow_right (by norm_num) (Nat.le_succ n)))).1

lemma natRepr_ne_nil (n : Nat) : natRepr n ≠ [] :=
  (natReprAux_spec n n (lt_of_lt_of_le (Nat.lt_pow_self (by norm_num) n)
    (Nat.pow_le_pow_right (by norm_num) (Nat.le_succ n)))).2.1

lemma digitsToNat_natRepr (n : Nat) : digitsToNat (natRepr n) = n :=
  (natReprAux_spec n n (lt_of_lt_of_le (Nat.lt_pow_self (by norm_num) n)
    (Nat.pow_le_pow_right (by norm_num) (Nat.le_succ n)))).2.2

lemma digit_lt_65 {c : Nat} (h : isDigitCp c = true) : c < 65 := by
  unfold isDigitCp at h
  simp only [Bool.and_eq_true, decide_eq_true_eq] at h
  omega

lemma natRepr_map_lowerCp (n : Nat) : (natRepr n).map lowerCp = natRepr n := by
  have h : ∀ c ∈ natRepr n, lowerCp c = c :=
    fun c hc => lowerCp_eq_self_of_lt (digit_lt_65 (natRepr_digits n c hc))
  calc (natRepr n).map lowerCp = (natRepr n).map id := List.map_congr_left h
    _ = natRepr n := List.map_id _

lemma takeWhile_all_append {p : Nat → Bool} (xs : Name) (y : Nat) (ys : Name)
    (hxs : ∀ x ∈ xs, p x = true) (hy : p y = false) :
    (xs ++ y :: ys).takeWhile p = xs := by
  induction xs with
  | nil => simp [List.takeWhile_cons, hy]
  | cons x xs ih =>
    rw [List.cons_append, List.takeWhile_cons_of_pos (hxs x (List.mem_cons_self x xs))]
    rw [ih (fun z hz => hxs z (List.mem_cons_of_mem _ hz))]

lemma dropWhile_all_append {p : Nat → Bool} (xs : Name) (y : Nat) (ys : Name)
    (hxs : ∀ x ∈ xs, p x = true) (hy : p y = false) :
    (xs ++ y :: ys).dropWhile p = y :: ys := by
  induction xs with
  | nil => simp [List.dropWhile_cons, hy]
  | cons x xs ih =>
    rw [List.cons_append, List.dropWhile_cons_of_pos (hxs x (List.mem_cons_self x xs))]
    exact ih (fun z hz => hxs z (List.mem_cons_of_mem _ hz))

/- ------------------------------------------------------------------ -/
/- Suffix decomposition lemmas                                         -/
/- ------------------------------------------------------------------ -/

lemma splitSuffix_append (t ds : Name) (hds : ds ≠ [])
    (hdig : ∀ c ∈ ds, isDigitCp c = true) :
    splitSuffix (t ++ [32, 40] ++ ds ++ [41]) = (t, some (digitsToNat ds)) := by
  have hdig' : ∀ c ∈ ds.reverse, isDigitCp c = true :=
    fun c hc => hdig c (List.mem_reverse.1 hc)
  have hrev : (t ++ [32, 40] ++ ds ++ [41]).reverse
      = 41 :: (ds.reverse ++ 40 :: 32 :: t.reverse) := by simp
  have htake := takeWhile_all_append ds.reverse 40 (32 :: t.reverse) hdig' rfl
  have hdrop := dropWhile_all_append ds.reverse 40 (32 :: t.reverse) hdig' rfl
  have hemp : (ds.reverse).isEmpty = false := by
    rw [List.isEmpty_eq_false]
    simpa using hds
  simp only [splitSuffix, hrev, htake, hdrop, hemp]
  simp

lemma splitSuffix_some (s b : Name) (k : Nat) (h : splitSuffix s = (b, some k)) :
    ∃ ds : Name, ds ≠ [] ∧ (∀ c ∈ ds, isDigitCp c = true) ∧ digitsToNat ds = k ∧
      s = b ++ [32, 40] ++ ds ++ [41] := by
  cases hrev : s.reverse with
  | nil =>
    simp only [splitSuffix, hrev] at h
    exact absurd h (by simp)
  | cons c rest =>
    simp only [splitSuffix, hrev] at h
    by_cases hc : c = 41
    case neg =>
      rw [if_neg (by simpa using hc)] at h
      exact absurd h (by simp)
    case pos =>
      subst hc
      rw [if_pos (by simp)] at h
      by_cases hemp : (rest.takeWhile isDigitCp).isEmpty = true
      · rw [if_pos hemp] at h
        exact absurd h (by simp)
      · rw [if_neg hemp] at h
        split at h
        case _ =>
          rename_i d1 d2 tl hdw
          by_cases hd : d1 = 40 ∧ d2 = 32
          case neg =>
            rw [if_neg (by simpa [Bool.and_eq_true] using hd)] at h
            exact absurd h (by simp)
          case pos =>
            obtain ⟨hd1, hd2⟩ := hd
            subst hd1
            subst hd2
            rw [if_pos (by simp)] at h
            rw [Prod.mk.injEq] at h
            obtain ⟨hb, hk⟩ := h
            injection hk with hk
            refine ⟨(rest.takeWhile isDigitCp).reverse, ?_, ?_, hk, ?_⟩
            · rw [ne_eq, List.reverse_eq_nil_iff]
              rw [Bool.not_eq_true, List.isEmpty_eq_false] at hemp
              exact hemp
            · intro cc hcc
              exact List.mem_takeWhile_imp (List.mem_reverse.1 hcc)
            · have hs : s = (41 :: rest).reverse := by rw [← hrev, List.reverse_reverse]
              have hrest : rest = rest.takeWhile isDigitCp ++ (40 :: 32 :: tl) := by
                conv_lhs => rw [← List.takeWhile_append_dropWhile (p := isDigitCp) (l := rest)]
                rw [hdw]
              rw [← hb, hs]
              conv_lhs => rw [hrest]
              simp
        case _ => exact absurd h (by simp)

lemma patternMatch_drop_cons (base e : Name) (h1 : ciEq e base = false)
    (h2 : ciEq (e.take base.length) base = true) (c1 c2 : Nat) (r : Name)
    (hdrop : e.drop base.length = c1 :: c2 :: r) :
    patternMatch base e =
      (if c1 == 32 && c2 == 40 then
        if (r.takeWhile isDigitCp).isEmpty then none
        else if r.dropWhile isDigitCp == [41] then
          some (some (digitsToNat (r.takeWhile isDigitCp)))
        else none
      else none) := by
  unfold patternMatch
  rw [if_neg (by simp [h1]), if_pos h2, hdrop]

lemma patternMatch_drop_short (base e : Name) (h1 : ciEq e base = false)
    (hshort : ∀ c1 c2 r, e.drop base.length ≠ c1 :: c2 :: r) :
    patternMatch base e = none := by
  unfold patternMatch
  rw [if_neg (by simp [h1])]
  by_cases h2 : ciEq (e.take base.length) base = true
  · rw [if_pos h2]
    cases hdrop : e.drop base.length with
    | nil => rfl
    | cons c1 r1 =>
      cases r1 with
      | nil => rfl
      | cons c2 r => exact absurd hdrop (hshort c1 c2 r)
  · rw [if_neg h2]

lemma patternMatch_append (base p ds : Name) (hp : ciEq p base = true) (hds : ds ≠ [])
    (hdig : ∀ c ∈ ds, isDigitCp c = true) :
    patternMatch base (p ++ [32, 40] ++ ds ++ [41]) = some (some (digitsToNat ds)) := by
  have hlen : p.length = base.length := ciEq_length hp
  have hdl : 1 ≤ ds.length := by
    cases ds with
    | nil => exact absurd rfl hds
    | cons a l => simp
  have hno : ciEq (p ++ [32, 40] ++ ds ++ [41]) base = false := by
    rw [Bool.eq_false_iff]
    intro hc
    have hl := ciEq_length hc
    simp only [List.append_assoc, List.length_append, List.length_cons,
      List.length_nil] at hl
    omega
  have htake : (p ++ [32, 40] ++ ds ++ [41]).take base.length = p := by
    rw [← hlen, List.append_assoc, List.append_assoc]
    exact List.take_left p _
  have hdrop : (p ++ [32, 40] ++ ds ++ [41]).drop base.length = 32 :: 40 :: (ds ++ [41]) := by
    rw [← hlen, List.append_assoc, List.append_assoc, List.drop_left]
    rfl
  have h2 : ciEq ((p ++ [32, 40] ++ ds ++ [41]).take base.length) base = true := by
    rw [htake]
    exact hp
  rw [patternMatch_drop_cons base _ hno h2 32 40 (ds ++ [41]) hdrop]
  rw [if_pos (by rfl)]
  have htw : (ds ++ [41]).takeWhile isDigitCp = ds := takeWhile_all_append ds 41 [] hdig rfl
  have hdw2 : (ds ++ [41]).dropWhile isDigitCp = [41] := dropWhile_all_append ds 41 [] hdig rfl
  rw [htw, hdw2]
  rw [if_neg (by simp [hds]), if_pos (by rfl)]

lemma patternMatch_unsuffixed {base e : Name} (h : patternMatch base e = some none) :
    ciEq e base = true := by
  by_contra h1
  rw [← Bool.not_eq_false] at h1
  rw [Classical.not_not] at h1
  by_cases h2 : ciEq (e.take base.length) base = true
  · cases hdrop : e.drop base.length with
    | nil =>
      rw [patternMatch_drop_short base e h1 (by rw [hdrop]; intro c1 c2 r hc; cases hc)] at h
      exact absurd h (by simp)
    | cons c1 r1 =>
      cases r1 with
      | nil =>
        rw [patternMatch_drop_short base e h1
          (by rw [hdrop]; intro c1 c2 r hc; simp at hc)] at h
        exact absurd h (by simp)
      | cons c2 r =>
        rw [patternMatch_drop_cons base e h1 h2 c1 c2 r hdrop] at h
        split_ifs at h <;> simp_all
  · have : patternMatch base e = none := by
      unfold patternMatch
      rw [if_neg (by simp [h1]), if_neg h2]
    rw [this] at h
    exact absurd h (by simp)

lemma patternMatch_suffix_decomp (base e : Name) (k : Nat)
    (h : patternMatch base e = some (some k)) :
    ∃ ds, ciEq (e.take base.length) base = true ∧ ds ≠ [] ∧
      (∀ c ∈ ds, isDigitCp c = true) ∧ digitsToNat ds = k ∧
      e = e.take base.length ++ [32, 40] ++ ds ++ [41] := by
  have h1 : ciEq e base = false := by
    rw [Bool.eq_false_iff]
    intro hc
    unfold patternMatch at h
    rw [if_pos hc] at h
    exact absurd h (by simp)
  by_cases h2 : ciEq (e.take base.length) base = true
  case neg =>
    exfalso
    have : patternMatch base e = none := by
      unfold patternMatch
      rw [if_neg (by simp [h1]), if_neg h2]
    rw [this] at h
    exact absurd h (by simp)
  case pos =>
    cases hdrop : e.drop base.length with
    | nil =>
      exfalso
      rw [patternMatch_drop_short base e h1 (by rw [hdrop]; intro c1 c2 r hc; cases hc)] at h
      exact absurd h (by simp)
    | cons c1 r1 =>
      cases r1 with
      | nil =>
        exfalso
        rw [patternMatch_drop_short base e h1
          (by rw [hdrop]; intro c1 c2 r hc; simp at hc)] at h
        exact absurd h (by simp)
      | cons c2 r =>
        rw [patternMatch_drop_cons base e h1 h2 c1 c2 r hdrop] at h
        split_ifs at h with hb1 hb2 hb3
        · rw [Option.some.injEq, Option.some.injEq] at h
          rw [Bool.and_eq_true, beq_iff_eq, beq_iff_eq] at hb1
          obtain ⟨hc1, hc2⟩ := hb1
          subst hc1
          subst hc2
          refine ⟨r.takeWhile isDigitCp, h2, ?_, ?_, h, ?_⟩
          · rw [Bool.not_eq_true, List.isEmpty_eq_false] at hb2
            exact hb2
          · intro cc hcc
            exact List.mem_takeWhile_imp hcc
          · have hr : r = r.takeWhile isDigitCp ++ [41] := by
              conv_lhs => rw [← List.takeWhile_append_dropWhile (p := isDigitCp) (l := r)]
              rw [show r.dropWhile isDigitCp = [41] from by simpa using hb3]
            calc e = e.take base.length ++ e.drop base.length :=
                  (List.take_append_drop _ e).symm
              _ = e.take base.length ++ [32, 40] ++ r.takeWhile isDigitCp ++ [41] := by
                  rw [hdrop]
                  conv_lhs => rw [hr]
                  simp

/- ------------------------------------------------------------------ -/
/- Collision-scan fold lemmas                                          -/
/- ------------------------------------------------------------------ -/

lemma scanStep_ge (base : Name) (acc : Nat) (e : Name) : acc ≤ scanStep base acc e := by
  unfold scanStep
  cases patternMatch base (pyStrip e) with
  | none => exact le_refl _
  | some o =>
    cases o with
    | none => exact le_max_left _ _
    | some k => exact le_max_left _ _

lemma foldl_scanStep_mono (base : Name) (es : List Name) (acc : Nat) :
    acc ≤ es.foldl (scanStep base) acc := by
  induction es generalizing acc with
  | nil => exact le_refl _
  | cons e es ih => exact le_trans (scanStep_ge base acc e) (ih _)

lemma foldl_scanStep_mem_unsuffixed (base : Name) (es : List Name) (acc : Nat) (e : Name)
    (he : e ∈ es) (hm : patternMatch base (pyStrip e) = some none) :
    2 ≤ es.foldl (scanStep base) acc := by
  induction es generalizing acc with
  | nil => cases he
  | cons f fs ih =>
    rcases List.mem_cons.1 he with rfl | hmem
    · refine le_trans ?_ (foldl_scanStep_mono base fs _)
      unfold scanStep
      rw [hm]
      exact le_max_right _ _
    · exact ih _ hmem

lemma foldl_scanStep_mem_suffixed (base : Name) (es : List Name) (acc : Nat) (e : Name)
    (he : e ∈ es) (k : Nat) (hm : patternMatch base (pyStrip e) = some (some k)) :
    k + 1 ≤ es.foldl (scanStep base) acc := by
  induction es generalizing acc with
  | nil => cases he
  | cons f fs ih =>
    rcases List.mem_cons.1 he with rfl | hmem
    · refine le_trans ?_ (foldl_scanStep_mono base fs _)
      unfold scanStep
      rw [hm]
      exact le_max_right _ _
    · exact ih _ hmem

lemma specMatchSlot_pos {base e : Name} {t : Nat} (h : specMatchSlot base e = some t) :
    1 ≤ t := by
  unfold specMatchSlot at h
  split_ifs at h with h1
  · injection h with h
    omega
  · split at h
    · split_ifs at h with h2
      · rw [Bool.and_eq_true, decide_eq_true_eq] at h2
        injection h with h
        omega
    · exact absurd h (by simp)

/-- Bridge between the collision pattern of the code and the positive-slot
    test of the spec: a digit group with value zero matches the code's pattern
    but occupies no slot, and contributes nothing to the running maximum. -/
lemma specMatchSlot_eq (base e : Name) :
    specMatchSlot base e =
      (match patternMatch base e with
       | none => none
       | some none => some 1
       | some (some k) => if 1 ≤ k then some k else none) := by
  by_cases h1 : ciEq e base = true
  · have hpm : patternMatch base e = some none := by
      unfold patternMatch
      rw [if_pos h1]
    rw [hpm]
    unfold specMatchSlot
    rw [if_pos h1]
  · have hspec : specMatchSlot base e =
        (match splitSuffix e with
         | (b, some k) => if ciEq b base && decide (1 ≤ k) then some k else none
         | (_, none) => none) := by
      unfold specMatchSlot
      rw [if_neg h1]
    rw [hspec]
    cases hpm : patternMatch base e with
    | some o =>
      cases o with
      | none => exact absurd (patternMatch_unsuffixed hpm) h1
      | some k =>
        obtain ⟨ds, htake, hne, hdig, hk, hdecomp⟩ := patternMatch_suffix_decomp base e k hpm
        have hsp : splitSuffix e = (e.take base.length, some k) := by
          conv_lhs => rw [hdecomp]
          rw [splitSuffix_append _ ds hne hdig, hk]
        change _ = (if 1 ≤ k then some k else none)
        by_cases hklt : 1 ≤ k
        · rw [if_pos hklt, hsp]
          show (if (ciEq (e.take base.length) base && decide (1 ≤ k)) = true
              then some k else none) = some k
          rw [if_pos (by simp [htake, hklt])]
        · rw [if_neg hklt, hsp]
          show (if (ciEq (e.take base.length) base && decide (1 ≤ k)) = true
              then some k else none) = none
          rw [if_neg (by simp [hklt])]
    | none =>
      change _ = (none : Option Nat)
      split
      · rename_i b k heq
        by_cases hci : ciEq b base = true
        · exfalso
          obtain ⟨ds, hne, hdig, hk, hdecomp⟩ := splitSuffix_some e b k heq
          have hpm2 := patternMatch_append base b ds hci hne hdig
          rw [← hdecomp, hpm] at hpm2
          exact Option.noConfusion hpm2
        · rw [if_neg (by simp [hci])]
      · rfl

lemma foldl_scan_spec (base : Name) (es : List Name) :
    ∀ acc : Nat, 1 ≤ acc →
      es.foldl (scanStep base) acc =
        (es.filterMap (fun e => specMatchSlot base (pyStrip e))).foldl
          (fun a s => max a (s + 1)) acc := by
  induction es with
  | nil => intro acc _; rfl
  | cons e es ih =>
    intro acc hacc
    simp only [List.foldl_cons, List.filterMap_cons]
    cases hpm : patternMatch base (pyStrip e) with
    | none =>
      have hs : specMatchSlot base (pyStrip e) = none := by
        rw [specMatchSlot_eq, hpm]
      rw [hs]
      have hstep : scanStep base acc e = acc := by
        unfold scanStep
        rw [hpm]
      rw [hstep]
      exact ih acc hacc
    | some o =>
      cases o with
      | none =>
        have hs : specMatchSlot base (pyStrip e) = some 1 := by
          rw [specMatchSlot_eq, hpm]
        rw [hs]
        have hstep : scanStep base acc e = max acc 2 := by
          unfold scanStep
          rw [hpm]
        rw [hstep]
        simp only [List.foldl_cons]
        exact ih (max acc 2) (le_trans hacc (le_max_left _ _))
      | some k =>
        by_cases hk : 1 ≤ k
        · have hs : specMatchSlot base (pyStrip e) = some k := by
            rw [specMatchSlot_eq, hpm]
            simp [hk]
          rw [hs]
          have hstep : scanStep base acc e = max acc (k + 1) := by
            unfold scanStep
            rw [hpm]
          rw [hstep]
          simp only [List.foldl_cons]
          exact ih (max acc (k + 1)) (le_trans hacc (le_max_left _ _))
        · have hk0 : k = 0 := by omega
          have hs : specMatchSlot base (pyStrip e) = none := by
            rw [specMatchSlot_eq, hpm]
            simp [hk]
          rw [hs]
          have hstep : scanStep base acc e = max acc (k + 1) := by
            unfold scanStep
            rw [hpm]
          rw [hstep, hk0, show max acc (0 + 1) = acc from by omega]
          exact ih acc hacc

lemma foldl_max_succ (l : List Nat) (a : Nat) :
    l.foldl (fun x s => max x (s + 1)) (a + 1) = (l.foldl max a) + 1 := by
  induction l generalizing a with
  | nil => rfl
  | cons s l ih =>
    simp only [List.foldl_cons]
    rw [show max (a + 1) (s + 1) = (max a s) + 1 from by omega]
    exact ih (max a s)

lemma le_foldl_max (l : List Nat) (a : Nat) : a ≤ l.foldl max a := by
  induction l generalizing a with
  | nil => exact le_refl _
  | cons s l ih => exact le_trans (le_max_left _ _) (ih (max a s))

lemma mem_le_foldl_max (l : List Nat) (a : Nat) (s : Nat) (hs : s ∈ l) :
    s ≤ l.foldl max a := by
  induction l generalizing a with
  | nil => cases hs
  | cons x l ih =>
    rcases List.mem_cons.1 hs with rfl | hmem
    · exact le_trans (le_max_right _ _) (le_foldl_max l _)
    · exact ih _ hmem

/- ------------------------------------------------------------------ -/
/- C2: the dedup rule matches the spec                                 -/
/- ------------------------------------------------------------------ -/

/-- C2: generate_unique_name computes exactly the spec's rule: extract the
    trimmed, suffix-stripped base; if the case-insensitive scan finds no
    occupied slot (base itself occupying slot 1, a parenthesised positive k
    occupying slot k), return the base unchanged, otherwise return the base
    followed by a parenthesised counter equal to one more than the highest
    occupied slot seen. -/
theorem C2_dedupe_matches_spec (cand : Name) (existing : List Name) :
    generate_unique_name cand existing = specDedupe cand existing := by
  have hgen : generate_unique_name cand existing =
      (if existing.foldl (scanStep (extractBase cand)) 1 = 1 then extractBase cand
       else withSuffix (extractBase cand)
         (existing.foldl (scanStep (extractBase cand)) 1)) := rfl
  have hspec : specDedupe cand existing =
      (match existing.filterMap (fun e => specMatchSlot (extractBase cand) (pyStrip e)) with
       | [] => extractBase cand
       | _ :: _ => withSuffix (extractBase cand)
           ((existing.filterMap
             (fun e => specMatchSlot (extractBase cand) (pyStrip e))).foldl max 1 + 1)) := rfl
  rw [hgen, hspec, foldl_scan_spec (extractBase cand) existing 1 (le_refl 1)]
  set slots := existing.filterMap (fun e => specMatchSlot (extractBase cand) (pyStrip e))
    with hslots
  clear_value slots
  cases slots with
  | nil => simp
  | cons s rest =>
    have hpos : ∀ t ∈ s :: rest,  1 ≤ t := by
      intro t ht
      rw [hslots] at ht
      obtain ⟨e, -, hsp⟩ := List.mem_filterMap.1 ht
      exact specMatchSlot_pos hsp
    have hs1 : 1 ≤ s := hpos s (List.mem_cons_self s rest)
    have hval : (s :: rest).foldl (fun a t => max a (t + 1)) 1 = ((s :: rest).foldl max 0) + 1 := by
      rw [show (1 : Nat) = 0 + 1 from rfl, foldl_max_succ]
    have hge : 2 ≤ (s :: rest).foldl (fun a t => max a (t + 1)) 1 := by
      rw [hval]
      have : s ≤ (s :: rest).foldl max 0 := mem_le_foldl_max _ _ _ (List.mem_cons_self s rest)
      omega
    rw [if_neg (by omega)]
    rw [hval]
    have hshift : (s :: rest).foldl max 0 = (s :: rest).foldl max 1 := by
      simp only [List.foldl_cons]
      rw [show max 0 s = max 1 s from by omega]
    rw [hshift]

/- ------------------------------------------------------------------ -/
/- C8: dedup monotonicity                                              -/
/- ------------------------------------------------------------------ -/

lemma pyStrip_withSuffix (base : Name) (hb : pyStrip base = base) (hne : base ≠ [])
    (m : Nat) : pyStrip (withSuffix base m) = withSuffix base m := by
  obtain ⟨b0, brest, rfl⟩ : ∃ b0 brest, base = b0 :: brest := by
    cases base with
    | nil => exact absurd rfl hne
    | cons a l => exact ⟨a, l, rfl⟩
  have hb0 : isWsCp b0 = false := head_not_ws_of_pyStrip_fixed hb
  have hshape : withSuffix (b0 :: brest) m
      = b0 :: ((brest ++ [32, 40] ++ natRepr m) ++ [41]) := by
    simp [withSuffix]
  rw [hshape, pyStrip_sandwich (x := b0) (y := 41) _ hb0 (by decide)]

lemma patternMatch_self (base : Name) : patternMatch base base = some none := by
  unfold patternMatch
  rw [if_pos (ciEq_refl base)]

lemma patternMatch_withSuffix (base : Name) (m : Nat) :
    patternMatch base (withSuffix base m) = some (some m) := by
  have h := patternMatch_append base base (natRepr m) (ciEq_refl base)
    (natRepr_ne_nil m) (natRepr_digits m)
  rw [digitsToNat_natRepr] at h
  exact h

lemma foldl_scanStep_seq (base : Name) (hb : pyStrip base = base) (hne : base ≠ []) :
    ∀ n acc, ((List.range n).map (seqElem base)).foldl (scanStep base) acc
      = if n = 0 then acc else max acc (n + 1) := by
  intro n
  induction n with
  | zero => intro acc; rfl
  | succ m ih =>
    intro acc
    rw [List.range_succ, List.map_append, List.foldl_append, ih acc]
    by_cases hm : m = 0
    · subst hm
      rw [if_pos rfl, if_neg (by omega)]
      have hsb : scanStep base acc base = max acc 2 := by
        unfold scanStep
        rw [hb, patternMatch_self]
      simp only [List.map_cons, List.map_nil, List.foldl_cons, List.foldl_nil]
      rw [show seqElem base 0 = base from rfl, hsb]
    · rw [if_neg hm, if_neg (by omega)]
      have helem : seqElem base m = withSuffix base (m + 1) := by simp [seqElem, hm]
      simp only [List.map_cons, List.map_nil, List.foldl_cons, List.foldl_nil]
      have hstep : scanStep base (max acc (m + 1)) (seqElem base m)
          = max (max acc (m + 1)) (m + 2) := by
        rw [helem]
        unfold scanStep
        rw [pyStrip_withSuffix base hb hne, patternMatch_withSuffix]
      rw [hstep]
      omega

/-- C8: for a base name that is already trimmed and carries no parenthesised
    suffix, n successive calls of generate_unique_name against the accumulating
    list of previous results yield the base, then the base with counters 2
    through n. -/
theorem C8_dedupe_monotone (base : Name) (hbase : extractBase base = base)
    (hne : base ≠ []) (n : Nat) :
    dedupeSeq base n = (List.range n).map (seqElem base) := by
  have hb : pyStrip base = base := by
    conv_lhs => rw [← hbase]
    rw [extractBase_stripped, hbase]
  induction n with
  | zero => rfl
  | succ m ih =>
    show dedupeSeq base m ++ [generate_unique_name base (dedupeSeq base m)] = _
    rw [ih, List.range_succ, List.map_append]
    congr 1
    have hgen : generate_unique_name base ((List.range m).map (seqElem base)) =
        (if ((List.range m).map (seqElem base)).foldl (scanStep base) 1 = 1 then base
         else withSuffix base
           (((List.range m).map (seqElem base)).foldl (scanStep base) 1)) := by
      unfold generate_unique_name
      rw [hbase]
    rw [hgen, foldl_scanStep_seq base hb hne m 1]
    by_cases hm : m = 0
    · subst hm
      rw [if_pos rfl, if_pos rfl]
      simp [seqElem]
    · rw [if_neg hm, if_neg (by omega)]
      rw [show max 1 (m + 1) = m + 1 from by omega]
      simp [seqElem, hm]

theorem C8_dedupe_monotone_witness :
    dedupeSeq [65] 3 = (List.range 3).map (seqElem [65]) :=
  C8_dedupe_monotone [65] (by decide) (by decide) 3

/- ------------------------------------------------------------------ -/
/- C4: freshness of the deduplicated name                              -/
/- ------------------------------------------------------------------ -/

/-- C4 counterexample: with an empty base (candidate all whitespace) the
    returned name starts with a space, and under whitespace-trimmed
    case-insensitive comparison it can collide with an existing name: dedup of
    the empty string against the existing names empty string and "(2)" returns
    " (2)", whose trimmed form equals the existing "(2)". -/
theorem C4_empty_base_cex :
    generate_unique_name [] [[], [40, 50, 41]] = [32, 40, 50, 41] ∧
    ciEq (pyStrip [32, 40, 50, 41]) (pyStrip [40, 50, 41]) = true ∧
    [40, 50, 41] ∈ [([] : Name), [40, 50, 41]] :=
  ⟨by decide, by decide, by decide⟩

/-- C4 as amended: whenever the trimmed, suffix-stripped base of the candidate
    is nonempty, the name returned by generate_unique_name differs from every
    existing name under case-insensitive whitespace-trimmed comparison (the
    function itself is a pure function of its two arguments by construction). -/
theorem C4_result_fresh (cand : Name) (existing : List Name)
    (hb : extractBase cand ≠ []) (e : Name) (he : e ∈ existing) :
    ciEq (pyStrip (generate_unique_name cand existing)) (pyStrip e) = false := by
  rw [Bool.eq_false_iff]
  intro hcol
  have hbstrip : pyStrip (extractBase cand) = extractBase cand := extractBase_stripped cand
  by_cases hF1 : existing.foldl (scanStep (extractBase cand)) 1 = 1
  · have hres : generate_unique_name cand existing = extractBase cand := by
      unfold generate_unique_name
      rw [if_pos hF1]
    rw [hres, hbstrip] at hcol
    have hpm : patternMatch (extractBase cand) (pyStrip e) = some none := by
      unfold patternMatch
      rw [if_pos (ciEq_symm hcol)]
    have h2 := foldl_scanStep_mem_unsuffixed (extractBase cand) existing 1 e he hpm
    omega
  · have hres : generate_unique_name cand existing =
        withSuffix (extractBase cand) (existing.foldl (scanStep (extractBase cand)) 1) := by
      unfold generate_unique_name
      rw [if_neg hF1]
    rw [hres, pyStrip_withSuffix _ hbstrip hb] at hcol
    have hmap : (pyStrip e).map lowerCp
        = (extractBase cand).map lowerCp ++ 32 :: 40 :: (natRepr
            (existing.foldl (scanStep (extractBase cand)) 1) ++ [41]) := by
      have h := (ciEq_iff _ _).1 (ciEq_symm hcol)
      rw [h]
      simp [withSuffix, natRepr_map_lowerCp, lowerCp]
    have hlenmap : (pyStrip e).length = (extractBase cand).length
        + ((natRepr (existing.foldl (scanStep (extractBase cand)) 1)).length + 1 + 1 + 1) := by
      have hl := congrArg List.length hmap
      simpa using hl
    have happ : (pyStrip e).take (extractBase cand).length
        ++ (pyStrip e).drop (extractBase cand).length = pyStrip e :=
      List.take_append_drop _ _
    have hmap2 : ((pyStrip e).take (extractBase cand).length).map lowerCp
        ++ ((pyStrip e).drop (extractBase cand).length).map lowerCp
        = (extractBase cand).map lowerCp ++ (32 :: 40 :: (natRepr
            (existing.foldl (scanStep (extractBase cand)) 1) ++ [41])) := by
      rw [← List.map_append, happ, hmap]
    have hlentake : (((pyStrip e).take (extractBase cand).length).map lowerCp).length
        = ((extractBase cand).map lowerCp).length := by
      simp only [List.length_map, List.length_take]
      omega
    obtain ⟨hA, hB⟩ := List.append_inj hmap2 hlentake
    have htake : ciEq ((pyStrip e).take (extractBase cand).length) (extractBase cand) = true :=
      (ciEq_iff _ _).2 hA
    have hdropeq : (pyStrip e).drop (extractBase cand).length
        = 32 :: 40 :: (natRepr (existing.foldl (scanStep (extractBase cand)) 1) ++ [41]) := by
      apply map_lowerCp_eq_of_nonalpha hB
      intro y hy
      rw [List.mem_cons, List.mem_cons, List.mem_append, List.mem_singleton] at hy
      rcases hy with rfl | rfl | hy' | rfl
      · left; omega
      · left; omega
      · left
        have := digit_lt_65 (natRepr_digits _ y hy')
        omega
      · left; omega
    have he2 : pyStrip e = (pyStrip e).take (extractBase cand).length ++ [32, 40]
        ++ natRepr (existing.foldl (scanStep (extractBase cand)) 1) ++ [41] := by
      conv_lhs => rw [← happ]
      rw [hdropeq]
      simp
    have hpm : patternMatch (extractBase cand) (pyStrip e)
        = some (some (existing.foldl (scanStep (extractBase cand)) 1)) := by
      have h3 := patternMatch_append (extractBase cand)
        ((pyStrip e).take (extractBase cand).length)
        (natRepr (existing.foldl (scanStep (extractBase cand)) 1)) htake
        (natRepr_ne_nil _) (natRepr_digits _)
      rw [← he2, digitsToNat_natRepr] at h3
      exact h3
    have h4 := foldl_scanStep_mem_suffixed (extractBase cand) existing 1 e he _ hpm
    omega

theorem C4_result_fresh_witness :
    ciEq (pyStrip (generate_unique_name [83, 97, 109]
        [[115, 97, 109], [83, 97, 109, 32, 40, 50, 41]]))
      (pyStrip [115, 97, 109]) = false ∧
    ciEq (pyStrip (generate_unique_name [83, 97, 109]
        [[115, 97, 109], [83, 97, 109, 32, 40, 50, 41]]))
      (pyStrip [83, 97, 109, 32, 40, 50, 41]) = false :=
  ⟨C4_result_fresh _ _ (by decide) _ (by decide),
   C4_result_fresh _ _ (by decide) _ (by decide)⟩

/- ------------------------------------------------------------------ -/
/- Settlement-loop lemmas                                              -/
/- ------------------------------------------------------------------ -/

lemma txnFromSum_cons (nm : Name) (t : Txn) (ts : List Txn) :
    txnFromSum nm (t :: ts)
      = (if t.From == nm then t.Amount else 0) + txnFromSum nm ts := by
  unfold txnFromSum
  rw [List.filter_cons]
  by_cases h : (t.From == nm) = true <;> simp [h]

lemma txnToSum_cons (nm : Name) (t : Txn) (ts : List Txn) :
    txnToSum nm (t :: ts)
      = (if t.To == nm then t.Amount else 0) + txnToSum nm ts := by
  unfold txnToSum
  rw [List.filter_cons]
  by_cases h : (t.To == nm) = true <;> simp [h]

lemma countFrom_cons (nm : Name) (t : Txn) (ts : List Txn) :
    countFrom nm (t :: ts) = (if t.From == nm then 1 else 0) + countFrom nm ts := by
  unfold countFrom
  rw [List.filter_cons]
  by_cases h : (t.From == nm) = true <;> simp [h] <;> omega

lemma countTo_cons (nm : Name) (t : Txn) (ts : List Txn) :
    countTo nm (t :: ts) = (if t.To == nm then 1 else 0) + countTo nm ts := by
  unfold countTo
  rw [List.filter_cons]
  by_cases h : (t.To == nm) = true <;> simp [h] <;> omega

lemma keyTotal_cons (nm : Name) (x : Name × ℚ) (l : List (Name × ℚ)) :
    keyTotal nm (x :: l) = (if x.1 == nm then x.2 else 0) + keyTotal nm l := by
  unfold keyTotal
  rw [List.filter_cons]
  by_cases h : (x.1 == nm) = true <;> simp [h]

lemma keyTotal_eq_zero (nm : Name) (l : List (Name × ℚ)) (h : nm ∉ l.map Prod.fst) :
    keyTotal nm l = 0 := by
  unfold keyTotal
  have : l.filter (fun x => x.1 == nm) = [] := by
    rw [List.filter_eq_nil_iff]
    intro x hx
    simp only [beq_iff_eq]
    intro hfst
    exact h (List.mem_map.2 ⟨x, hx, hfst⟩)
  rw [this]
  rfl

lemma keyTotal_of_mem_nodup (nm : Name) (v : ℚ) (l : List (Name × ℚ))
    (hnd : (l.map Prod.fst).Nodup) (hmem : (nm, v) ∈ l) : keyTotal nm l = v := by
  induction l with
  | nil => cases hmem
  | cons x xs ih =>
    rw [List.map_cons, List.nodup_cons] at hnd
    rw [keyTotal_cons]
    by_cases hx : x.1 = nm
    · have hx2 : x.2 = v := by
        rcases List.mem_cons.1 hmem with rfl | hmem'
        · rfl
        · exact absurd (hx ▸ List.mem_map.2 ⟨(nm, v), hmem', rfl⟩) hnd.1
      have hzero : keyTotal nm xs = 0 := by
        apply keyTotal_eq_zero
        rw [← hx]
        exact hnd.1
      rw [if_pos (by simp [hx]), hx2, hzero, add_zero]
    · have hmem' : (nm, v) ∈ xs := by
        rcases List.mem_cons.1 hmem with rfl | hmem'
        · exact absurd rfl hx
        · exact hmem'
      rw [if_neg (by simp [hx]), ih hnd.2 hmem', zero_add]

lemma settleLoopF_nil_left (fuel : Nat) (cs : List (Name × ℚ)) :
    settleLoopF fuel [] cs = [] := by
  cases fuel <;> rfl

lemma settleLoopF_nil_right (fuel : Nat) (x : Name × ℚ) (ds : List (Name × ℚ)) :
    settleLoopF fuel (x :: ds) [] = [] := by
  cases fuel <;> rfl

lemma settleLoopF_cons (fuel : Nat) (d : Name) (debt : ℚ) (ds : List (Name × ℚ))
    (c : Name) (credit : ℚ) (cs : List (Name × ℚ)) :
    settleLoopF (fuel + 1) ((d, debt) :: ds) ((c, credit) :: cs) =
      (if debt - min debt credit = 0 then
        if credit - min debt credit = 0 then
          ⟨d, c, round2 (min debt credit)⟩ :: settleLoopF fuel ds cs
        else ⟨d, c, round2 (min debt credit)⟩ ::
          settleLoopF fuel ds ((c, credit - min debt credit) :: cs)
      else ⟨d, c, round2 (min debt credit)⟩ ::
        settleLoopF fuel ((d, debt - min debt credit) :: ds) cs) := rfl

lemma settleLoopF_mem (fuel : Nat) : ∀ (ds cs : List (Name × ℚ)) (t : Txn),
    t ∈ settleLoopF fuel ds cs →
    t.From ∈ ds.map Prod.fst ∧ t.To ∈ cs.map Prod.fst := by
  induction fuel with
  | zero =>
    intro ds cs t ht
    cases ht
  | succ f ih =>
    intro ds cs t ht
    match ds, cs with
    | [], _ => cases ht
    | _ :: _, [] => cases ht
    | (d, debt) :: ds', (c, credit) :: cs' =>
      rw [settleLoopF_cons] at ht
      split_ifs at ht with h1 h2
      · rcases List.mem_cons.1 ht with rfl | ht'
        · constructor <;> simp
        · obtain ⟨hf, htt⟩ := ih ds' cs' t ht'
          exact ⟨List.mem_cons_of_mem _ hf, List.mem_cons_of_mem _ htt⟩
      · rcases List.mem_cons.1 ht with rfl | ht'
        · constructor <;> simp
        · obtain ⟨hf, htt⟩ := ih ds' ((c, credit - min debt credit) :: cs') t ht'
          refine ⟨List.mem_cons_of_mem _ hf, ?_⟩
          simpa using htt
      · rcases List.mem_cons.1 ht with rfl | ht'
        · constructor <;> simp
        · obtain ⟨hf, htt⟩ := ih ((d, debt - min debt credit) :: ds') cs' t ht'
          refine ⟨?_, List.mem_cons_of_mem _ htt⟩
          simpa using hf

lemma est_cons {amt target S rest_target : ℚ} {cnt : Nat}
    (hrest : |S - rest_target| ≤ (cnt : ℚ) / 200)
    (htot : target = amt + rest_target) :
    |round2 amt + S - target| ≤ ((cnt + 1 : Nat) : ℚ) / 200 := by
  have h1 := round2_err amt
  have heq : round2 amt + S - target = (round2 amt - amt) + (S - rest_target) := by
    rw [htot]
    ring
  rw [heq]
  calc |(round2 amt - amt) + (S - rest_target)|
      ≤ |round2 amt - amt| + |S - rest_target| := abs_add _ _
    _ ≤ 1 / 200 + (cnt : ℚ) / 200 := add_le_add h1 hrest
    _ = ((cnt + 1 : Nat) : ℚ) / 200 := by push_cast; ring

lemma settleLoopF_sums : ∀ (fuel : Nat) (ds cs : List (Name × ℚ)),
    ds.length + cs.length ≤ fuel →
    (∀ x ∈ ds, 0 < x.2) → (∀ x ∈ cs, 0 < x.2) →
    (ds.map Prod.snd).sum = (cs.map Prod.snd).sum →
    (ds.map Prod.fst).Nodup → (cs.map Prod.fst).Nodup →
    ∀ nm : Name,
      |txnFromSum nm (settleLoopF fuel ds cs) - keyTotal nm ds|
        ≤ (countFrom nm (settleLoopF fuel ds cs) : ℚ) / 200 ∧
      |txnToSum nm (settleLoopF fuel ds cs) - keyTotal nm cs|
        ≤ (countTo nm (settleLoopF fuel ds cs) : ℚ) / 200 := by
  intro fuel
  induction fuel with
  | zero =>
    intro ds cs hlen _ _ _ _ _ nm
    have hds : ds = [] := by rw [← List.length_eq_zero]; omega
    have hcs : cs = [] := by rw [← List.length_eq_zero]; omega
    subst hds
    subst hcs
    simp [settleLoopF, txnFromSum, txnToSum, keyTotal, countFrom, countTo]
  | succ f ih =>
    intro ds cs hlen hpd hpc hsum hndd hndc nm
    cases ds with
    | nil =>
      have hcs : cs = [] := by
        by_contra hne
        have hpos : 0 < (cs.map Prod.snd).sum := by
          apply List.sum_pos
          · intro x hx
            obtain ⟨y, hy, rfl⟩ := List.mem_map.1 hx
            exact hpc y hy
          · simpa using hne
        rw [← hsum] at hpos
        simp at hpos
      subst hcs
      simp [settleLoopF_nil_left, txnFromSum, txnToSum, keyTotal, countFrom, countTo]
    | cons hd ds' =>
      cases cs with
      | nil =>
        exfalso
        have hpos : 0 < ((hd :: ds').map Prod.snd).sum := by
          apply List.sum_pos
          · intro x hx
            obtain ⟨y, hy, rfl⟩ := List.mem_map.1 hx
            exact hpd y hy
          · simp
        rw [hsum] at hpos
        simp at hpos
      | cons hc cs' =>
        obtain ⟨d, debt⟩ := hd
        obtain ⟨c, credit⟩ := hc
        rw [settleLoopF_cons]
        have hdpos : 0 < debt := hpd (d, debt) (List.mem_cons_self _ _)
        have hcpos : 0 < credit := hpc (c, credit) (List.mem_cons_self _ _)
        rw [List.map_cons, List.nodup_cons] at hndd hndc
        obtain ⟨hd_not, hndd'⟩ := hndd
        obtain ⟨hc_not, hndc'⟩ := hndc
        rw [List.map_cons, List.sum_cons, List.map_cons, List.sum_cons] at hsum
        have hpd' : ∀ x ∈ ds', 0 < x.2 := fun x hx => hpd x (List.mem_cons_of_mem _ hx)
        have hpc' : ∀ x ∈ cs', 0 < x.2 := fun x hx => hpc x (List.mem_cons_of_mem _ hx)
        simp only [List.length_cons] at hlen
        split_ifs with h1 h2
        · -- both heads settle exactly: amount = debt = credit
          have hmind : min debt credit = debt := (sub_eq_zero.1 h1).symm
          have hminc : min debt credit = credit := (sub_eq_zero.1 h2).symm
          have hdc : debt = credit := by rw [← hmind, hminc]
          have hrec := ih ds' cs' (by omega) hpd' hpc' (by linarith) hndd' hndc' nm
          rw [hmind]
          constructor
          · rw [txnFromSum_cons, countFrom_cons, keyTotal_cons]
            by_cases hnm : d = nm
            · rw [if_pos (by simp [hnm]), if_pos (by simp [hnm]), if_pos (by simp [hnm])]
              have hzero : keyTotal nm ds' = 0 := keyTotal_eq_zero nm ds' (hnm ▸ hd_not)
              have hrest := hrec.1
              rw [hzero] at hrest ⊢
              rw [add_zero, Nat.add_comm 1 _]
              exact est_cons hrest (by ring)
            · rw [if_neg (by simp [hnm]), if_neg (by simp [hnm]), if_neg (by simp [hnm])]
              rw [zero_add, Nat.zero_add, zero_add]
              exact hrec.1
          · rw [txnToSum_cons, countTo_cons, keyTotal_cons]
            by_cases hnm : c = nm
            · rw [if_pos (by simp [hnm]), if_pos (by simp [hnm]), if_pos (by simp [hnm])]
              have hzero : keyTotal nm cs' = 0 := keyTotal_eq_zero nm cs' (hnm ▸ hc_not)
              have hrest := hrec.2
              rw [hzero] at hrest ⊢
              rw [add_zero, Nat.add_comm 1 _]
              exact est_cons hrest (by rw [hdc, add_zero])
            · rw [if_neg (by simp [hnm]), if_neg (by simp [hnm]), if_neg (by simp [hnm])]
              rw [zero_add, Nat.zero_add, zero_add]
              exact hrec.2
        · -- amount = debt, creditor keeps a positive remainder
          have hmind : min debt credit = debt := (sub_eq_zero.1 h1).symm
          rw [hmind] at h2 ⊢
          have hdlec : debt ≤ credit := min_eq_left_iff.1 hmind
          have hclt : 0 < credit - debt :=
            (by linarith : (0 : ℚ) ≤ credit - debt).lt_of_ne (fun hh => h2 hh.symm)
          have hpc2 : ∀ x ∈ (c, credit - debt) :: cs', 0 < x.2 := by
            intro x hx
            rcases List.mem_cons.1 hx with rfl | hx'
            · simpa using hclt
            · exact hpc' x hx'
          have hsum2 : (ds'.map Prod.snd).sum = (((c, credit - debt) :: cs').map Prod.snd).sum := by
            simp only [List.map_cons, List.sum_cons]
            linarith
          have hndc2 : (((c, credit - debt) :: cs').map Prod.fst).Nodup := by
            simp only [List.map_cons]
            exact List.nodup_cons.2 ⟨hc_not, hndc'⟩
          have hrec := ih ds' ((c, credit - debt) :: cs')
            (by simp only [List.length_cons]; omega) hpd' hpc2 hsum2 hndd' hndc2 nm
          constructor
          · rw [txnFromSum_cons, countFrom_cons, keyTotal_cons]
            by_cases hnm : d = nm
            · rw [if_pos (by simp [hnm]), if_pos (by simp [hnm]), if_pos (by simp [hnm])]
              have hzero : keyTotal nm ds' = 0 := keyTotal_eq_zero nm ds' (hnm ▸ hd_not)
              have hrest := hrec.1
              rw [hzero] at hrest ⊢
              rw [add_zero, Nat.add_comm 1 _]
              exact est_cons hrest (by ring)
            · rw [if_neg (by simp [hnm]), if_neg (by simp [hnm]), if_neg (by simp [hnm])]
              rw [zero_add, Nat.zero_add, zero_add]
              exact hrec.1
          · rw [txnToSum_cons, countTo_cons, keyTotal_cons]
            have hrec2 := hrec.2
            rw [keyTotal_cons] at hrec2
            by_cases hnm : c = nm
            · rw [if_pos (by simp [hnm]), if_pos (by simp [hnm]), if_pos (by simp [hnm])]
              rw [if_pos (by simp [hnm])] at hrec2
              have hzero : keyTotal nm cs' = 0 := keyTotal_eq_zero nm cs' (hnm ▸ hc_not)
              rw [hzero, add_zero] at hrec2 ⊢
              rw [Nat.add_comm 1 _]
              exact est_cons hrec2 (by ring)
            · rw [if_neg (by simp [hnm]), if_neg (by simp [hnm]), if_neg (by simp [hnm])]
              rw [if_neg (by simp [hnm]), zero_add] at hrec2
              rw [zero_add, Nat.zero_add, zero_add]
              exact hrec2
        · -- amount = credit, debtor keeps a positive remainder
          have hminc : min debt credit = credit := by
            rcases min_choice debt credit with hmm | hmm
            · exact absurd (by rw [hmm, sub_self]) h1
            · exact hmm
          rw [hminc] at h1 ⊢
          have hcled : credit ≤ debt := min_eq_right_iff.1 hminc
          have hdlt : 0 < debt - credit :=
            (by linarith : (0 : ℚ) ≤ debt - credit).lt_of_ne (fun hh => h1 hh.symm)
          have hpd2 : ∀ x ∈ (d, debt - credit) :: ds', 0 < x.2 := by
            intro x hx
            rcases List.mem_cons.1 hx with rfl | hx'
            · simpa using hdlt
            · exact hpd' x hx'
          have hsum2 : (((d, debt - credit) :: ds').map Prod.snd).sum = (cs'.map Prod.snd).sum := by
            simp only [List.map_cons, List.sum_cons]
            linarith
          have hndd2 : (((d, debt - credit) :: ds').map Prod.fst).Nodup := by
            simp only [List.map_cons]
            exact List.nodup_cons.2 ⟨hd_not, hndd'⟩
          have hrec := ih ((d, debt - credit) :: ds') cs'
            (by simp only [List.length_cons]; omega) hpd2 hpc' hsum2 hndd2 hndc' nm
          constructor
          · rw [txnFromSum_cons, countFrom_cons, keyTotal_cons]
            have hrec1 := hrec.1
            rw [keyTotal_cons] at hrec1
            by_cases hnm : d = nm
            · rw [if_pos (by simp [hnm]), if_pos (by simp [hnm]), if_pos (by simp [hnm])]
              rw [if_pos (by simp [hnm])] at hrec1
              have hzero : keyTotal nm ds' = 0 := keyTotal_eq_zero nm ds' (hnm ▸ hd_not)
              rw [hzero, add_zero] at hrec1 ⊢
              rw [Nat.add_comm 1 _]
              exact est_cons hrec1 (by ring)
            · rw [if_neg (by simp [hnm]), if_neg (by simp [hnm]), if_neg (by simp [hnm])]
              rw [if_neg (by simp [hnm]), zero_add] at hrec1
              rw [zero_add, Nat.zero_add, zero_add]
              exact hrec1
          · rw [txnToSum_cons, countTo_cons, keyTotal_cons]
            by_cases hnm : c = nm
            · rw [if_pos (by simp [hnm]), if_pos (by simp [hnm]), if_pos (by simp [hnm])]
              have hzero : keyTotal nm cs' = 0 := keyTotal_eq_zero nm cs' (hnm ▸ hc_not)
              have hrest := hrec.2
              rw [hzero] at hrest ⊢
              rw [add_zero, Nat.add_comm 1 _]
              exact est_cons hrest (by ring)
            · rw [if_neg (by simp [hnm]), if_neg (by simp [hnm]), if_neg (by simp [hnm])]
              rw [zero_add, Nat.zero_add, zero_add]
              exact hrec.2

/- ------------------------------------------------------------------ -/
/- Settlement assembly lemmas                                          -/
/- ------------------------------------------------------------------ -/

lemma pyDict_nodup_aux (f : Participant → ℚ) : ∀ (ps : List Participant)
    (d : List (Name × ℚ)), (ps.map Participant.name).Nodup →
    (∀ p ∈ ps, ∀ kv ∈ d, kv.1 ≠ p.name) →
    ps.foldl (fun d p => dictInsert p.name (f p) d) d
      = d ++ ps.map (fun p => (p.name, f p)) := by
  intro ps
  induction ps with
  | nil => intro d _ _; simp
  | cons p ps ih =>
    intro d hnd hfresh
    rw [List.map_cons, List.nodup_cons] at hnd
    simp only [List.foldl_cons]
    have hins : dictInsert p.name (f p) d = d ++ [(p.name, f p)] := by
      unfold dictInsert
      rw [if_neg]
      rw [Bool.not_eq_true, List.any_eq_false]
      intro kv hkv
      simpa using hfresh p (List.mem_cons_self _ _) kv hkv
    rw [hins, ih (d ++ [(p.name, f p)]) hnd.2]
    · simp
    · intro q hq kv hkv
      rcases List.mem_append.1 hkv with hkv' | hkv'
      · exact hfresh q (List.mem_cons_of_mem _ hq) kv hkv'
      · rw [List.mem_singleton] at hkv'
        subst hkv'
        intro hname
        refine hnd.1 ?_
        rw [show p.name = q.name from hname]
        exact List.mem_map.2 ⟨q, hq, rfl⟩

lemma pyDict_eq_map (f : Participant → ℚ) (ps : List Participant)
    (h : (ps.map Participant.name).Nodup) :
    pyDict f ps = ps.map (fun p => (p.name, f p)) := by
  have := pyDict_nodup_aux f ps [] h (by simp)
  simpa [pyDict] using this

lemma dictLookup_map_nodup (f : Participant → ℚ) (ps : List Participant)
    (h : (ps.map Participant.name).Nodup) (q : Participant) (hq : q ∈ ps) :
    dictLookup (ps.map (fun p => (p.name, f p))) q.name = f q := by
  induction ps with
  | nil => cases hq
  | cons p ps ih =>
    rw [List.map_cons, List.nodup_cons] at h
    rw [List.map_cons]
    unfold dictLookup
    by_cases hpq : p.name = q.name
    · rw [List.find?_cons_of_pos _ (by simp [hpq])]
      rcases List.mem_cons.1 hq with rfl | hq'
      · rfl
      · exact absurd (hpq ▸ List.mem_map.2 ⟨q, hq', rfl⟩) h.1
    · rw [List.find?_cons_of_neg _ (by simp [hpq])]
      rcases List.mem_cons.1 hq with rfl | hq'
      · exact absurd rfl hpq
      · exact ih h.2 hq'

lemma settlement_balances_eq (ps : List Participant)
    (h : (ps.map Participant.name).Nodup) :
    settlement_balances ps
      = ps.map (fun p => (p.name, p.amount_spent - exactFairShare ps p)) := by
  unfold settlement_balances
  rw [pyDict_eq_map _ _ h]
  apply List.map_congr_left
  intro p hp
  have hfair : dictLookup (settlement_fair_shares ps) p.name = exactFairShare ps p := by
    unfold settlement_fair_shares
    rw [pyDict_eq_map _ _ h]
    exact dictLookup_map_nodup _ _ h p hp
  rw [hfair]

lemma balances_snd_sum_zero (ps : List Participant) (hW : 0 < totalWeight ps)
    (h : (ps.map Participant.name).Nodup) :
    ((settlement_balances ps).map Prod.snd).sum = 0 := by
  rw [settlement_balances_eq ps h, List.map_map]
  exact exact_balance_sum ps hW

lemma sum_filter_neg_pos (l : List (Name × ℚ)) :
    ((l.filter (fun x => decide (x.2 < 0))).map Prod.snd).sum
      + ((l.filter (fun x => decide (0 < x.2))).map Prod.snd).sum
      = (l.map Prod.snd).sum := by
  induction l with
  | nil => simp
  | cons x xs ih =>
    rcases lt_trichotomy x.2 0 with hx | hx | hx
    · rw [List.filter_cons_of_pos (by simpa using hx),
        List.filter_cons_of_neg (by simp; linarith)]
      simp only [List.map_cons, List.sum_cons]
      linarith
    · rw [List.filter_cons_of_neg (by simp [hx]), List.filter_cons_of_neg (by simp [hx])]
      simp only [List.map_cons, List.sum_cons, hx]
      linarith
    · rw [List.filter_cons_of_neg (by simp; linarith), List.filter_cons_of_pos (by simpa using hx)]
      simp only [List.map_cons, List.sum_cons]
      linarith

lemma sum_map_negpair (l : List (Name × ℚ)) :
    ((l.map (fun nb => (nb.1, -nb.2))).map Prod.snd).sum = -((l.map Prod.snd).sum) := by
  induction l with
  | nil => simp
  | cons x xs ih =>
    simp only [List.map_cons, List.sum_cons, ih]
    ring

lemma debtorsOf_pos (ps : List Participant) : ∀ x ∈ debtorsOf ps, 0 < x.2 := by
  intro x hx
  unfold debtorsOf pySortByMag at hx
  rw [List.mem_insertionSort] at hx
  unfold rawDebtors at hx
  obtain ⟨nb, hnb, rfl⟩ := List.mem_map.1 hx
  have := (List.mem_filter.1 hnb).2
  simp only [decide_eq_true_eq] at this
  simpa using this

lemma creditorsOf_pos (ps : List Participant) : ∀ x ∈ creditorsOf ps, 0 < x.2 := by
  intro x hx
  unfold creditorsOf pySortByMag at hx
  rw [List.mem_insertionSort] at hx
  unfold rawCreditors at hx
  have := (List.mem_filter.1 hx).2
  simpa using this

lemma debtorsOf_fst_nodup (ps : List Participant)
    (h : (ps.map Participant.name).Nodup) : ((debtorsOf ps).map Prod.fst).Nodup := by
  have hperm : ((debtorsOf ps).map Prod.fst).Perm ((rawDebtors ps).map Prod.fst) :=
    (pySortByMag_perm _).map _
  rw [hperm.nodup_iff]
  unfold rawDebtors
  rw [List.map_map]
  have hcomp : (Prod.fst ∘ fun nb : Name × ℚ => (nb.1, -nb.2)) = Prod.fst := rfl
  rw [hcomp]
  have hsub : List.Sublist
      (((settlement_balances ps).filter (fun nb => decide (nb.2 < 0))).map Prod.fst)
      ((settlement_balances ps).map Prod.fst) :=
    (List.filter_sublist _).map _
  refine hsub.nodup ?_
  rw [settlement_balances_eq ps h, List.map_map]
  exact h

lemma creditorsOf_fst_nodup (ps : List Participant)
    (h : (ps.map Participant.name).Nodup) : ((creditorsOf ps).map Prod.fst).Nodup := by
  have hperm : ((creditorsOf ps).map Prod.fst).Perm ((rawCreditors ps).map Prod.fst) :=
    (pySortByMag_perm _).map _
  rw [hperm.nodup_iff]
  unfold rawCreditors
  have hsub : List.Sublist
      (((settlement_balances ps).filter (fun nb => decide (0 < nb.2))).map Prod.fst)
      ((settlement_balances ps).map Prod.fst) :=
    (List.filter_sublist _).map _
  refine hsub.nodup ?_
  rw [settlement_balances_eq ps h, List.map_map]
  exact h

lemma debtors_creditors_sum_eq (ps : List Participant) (hW : 0 < totalWeight ps)
    (h : (ps.map Participant.name).Nodup) :
    ((debtorsOf ps).map Prod.snd).sum = ((creditorsOf ps).map Prod.snd).sum := by
  have hd : ((debtorsOf ps).map Prod.snd).sum = ((rawDebtors ps).map Prod.snd).sum :=
    ((pySortByMag_perm _).map _).sum_eq
  have hc : ((creditorsOf ps).map Prod.snd).sum = ((rawCreditors ps).map Prod.snd).sum :=
    ((pySortByMag_perm _).map _).sum_eq
  rw [hd, hc]
  unfold rawDebtors rawCreditors
  rw [sum_map_negpair]
  have hsplit := sum_filter_neg_pos (settlement_balances ps)
  have hzero := balances_snd_sum_zero ps hW h
  linarith

lemma mem_debtorsOf (ps : List Participant) (h : (ps.map Participant.name).Nodup)
    (p : Participant) (hp : p ∈ ps)
    (hneg : p.amount_spent - exactFairShare ps p < 0) :
    (p.name, -(p.amount_spent - exactFairShare ps p)) ∈ debtorsOf ps := by
  unfold debtorsOf pySortByMag
  rw [List.mem_insertionSort]
  unfold rawDebtors
  refine List.mem_map.2 ⟨(p.name, p.amount_spent - exactFairShare ps p), ?_, rfl⟩
  refine List.mem_filter.2 ⟨?_, by simpa using hneg⟩
  rw [settlement_balances_eq ps h]
  exact List.mem_map.2 ⟨p, hp, rfl⟩

lemma mem_creditorsOf (ps : List Participant) (h : (ps.map Participant.name).Nodup)
    (p : Participant) (hp : p ∈ ps)
    (hpos : 0 < p.amount_spent - exactFairShare ps p) :
    (p.name, p.amount_spent - exactFairShare ps p) ∈ creditorsOf ps := by
  unfold creditorsOf pySortByMag
  rw [List.mem_insertionSort]
  unfold rawCreditors
  refine List.mem_filter.2 ⟨?_, by simpa using hpos⟩
  rw [settlement_balances_eq ps h]
  exact List.mem_map.2 ⟨p, hp, rfl⟩

lemma not_mem_debtorsOf_fst (ps : List Participant)
    (h : (ps.map Participant.name).Nodup) (p : Participant) (hp : p ∈ ps)
    (hnneg : ¬(p.amount_spent - exactFairShare ps p < 0)) :
    p.name ∉ (debtorsOf ps).map Prod.fst := by
  intro hmem
  obtain ⟨x, hx, hfst⟩ := List.mem_map.1 hmem
  unfold debtorsOf pySortByMag at hx
  rw [List.mem_insertionSort] at hx
  unfold rawDebtors at hx
  obtain ⟨nb, hnb, rfl⟩ := List.mem_map.1 hx
  obtain ⟨hnbB, hnbneg⟩ := List.mem_filter.1 hnb
  rw [settlement_balances_eq ps h] at hnbB
  obtain ⟨q, hq, rfl⟩ := List.mem_map.1 hnbB
  have hqp : q = p := by
    apply List.inj_on_of_nodup_map h hq hp
    simpa using hfst
  subst hqp
  simp only [decide_eq_true_eq] at hnbneg
  exact hnneg (by simpa using hnbneg)

lemma not_mem_creditorsOf_fst (ps : List Participant)
    (h : (ps.map Participant.name).Nodup) (p : Participant) (hp : p ∈ ps)
    (hnpos : ¬(0 < p.amount_spent - exactFairShare ps p)) :
    p.name ∉ (creditorsOf ps).map Prod.fst := by
  intro hmem
  obtain ⟨x, hx, hfst⟩ := List.mem_map.1 hmem
  unfold creditorsOf pySortByMag at hx
  rw [List.mem_insertionSort] at hx
  unfold rawCreditors at hx
  obtain ⟨hnbB, hnbpos⟩ := List.mem_filter.1 hx
  rw [settlement_balances_eq ps h] at hnbB
  obtain ⟨q, hq, rfl⟩ := List.mem_map.1 hnbB
  have hqp : q = p := by
    apply List.inj_on_of_nodup_map h hq hp
    simpa using hfst
  subst hqp
  simp only [decide_eq_true_eq] at hnbpos
  exact hnpos (by simpa using hnbpos)

/- ------------------------------------------------------------------ -/
/- C3: settlement correctness                                          -/
/- ------------------------------------------------------------------ -/

/-- C3 counterexample: applying a transaction in the claim's direction
    (subtract the amount from the payer's balance, add it to the receiver's)
    moves balances away from zero.  With A spending 100 and B spending 0 at
    equal weights, the emitted settlement is B pays A 50; A's balance 50
    becomes 100 under the claimed rule, which is not approximately zero under
    any rounding tolerance (one transaction allows at most 1/200). -/
theorem C3_apply_direction_cex :
    compute_settlements [⟨[65], 100, 1, []⟩, ⟨[66], 0, 1, []⟩]
      = some [⟨[66], [65], 50⟩] ∧
    balanceOf [⟨[65], 100, 1, []⟩, ⟨[66], 0, 1, []⟩] [65]
      - txnFromSum [65] [⟨[66], [65], 50⟩] + txnToSum [65] [⟨[66], [65], 50⟩] = 100 ∧
    ¬(|balanceOf [⟨[65], 100, 1, []⟩, ⟨[66], 0, 1, []⟩] [65]
      - txnFromSum [65] [⟨[66], [65], 50⟩] + txnToSum [65] [⟨[66], [65], 50⟩]|
        ≤ (([⟨[66], [65], 50⟩] : List Txn).length : ℚ) / 200) :=
  ⟨by with_unfolding_all decide, by with_unfolding_all decide,
    by with_unfolding_all decide⟩

/-- C3 as amended: for every participant list with positive total weight and
    pairwise-distinct names, compute_settlements succeeds, every debtor's
    emitted payments sum to the original debt up to the per-emission rounding
    (at most 1/200 per emitted transaction naming the debtor), likewise every
    creditor's receipts, crediting every transaction to the payer's balance and
    debiting the receiver's drives every participant's balance to within
    (number of transactions)/200 of zero, and the result is empty whenever the
    debtor or creditor list is empty. -/
theorem C3_settlement_correct (ps : List Participant) (hW : 0 < totalWeight ps)
    (hnd : (ps.map Participant.name).Nodup) :
    ∃ ts, compute_settlements ps = some ts ∧
      (∀ nm debt, (nm, debt) ∈ debtorsOf ps →
        |txnFromSum nm ts - debt| ≤ (countFrom nm ts : ℚ) / 200) ∧
      (∀ nm credit, (nm, credit) ∈ creditorsOf ps →
        |txnToSum nm ts - credit| ≤ (countTo nm ts : ℚ) / 200) ∧
      (∀ p ∈ ps, |balanceOf ps p.name + txnFromSum p.name ts - txnToSum p.name ts|
        ≤ (ts.length : ℚ) / 200) ∧
      ((debtorsOf ps = [] ∨ creditorsOf ps = []) → ts = []) := by
  have hne : ps ≠ [] := by
    intro hnil
    rw [hnil] at hW
    simp [totalWeight] at hW
  have hcomp : compute_settlements ps
      = some (settleLoop (debtorsOf ps) (creditorsOf ps)) := by
    unfold compute_settlements
    rw [if_neg]
    rintro ⟨-, h0⟩
    exact absurd h0 (ne_of_gt hW)
  have main := settleLoopF_sums ((debtorsOf ps).length + (creditorsOf ps).length)
    (debtorsOf ps) (creditorsOf ps) (le_refl _) (debtorsOf_pos ps) (creditorsOf_pos ps)
    (debtors_creditors_sum_eq ps hW hnd) (debtorsOf_fst_nodup ps hnd)
    (creditorsOf_fst_nodup ps hnd)
  have hlookup : ∀ p ∈ ps, balanceOf ps p.name
      = p.amount_spent - exactFairShare ps p := by
    intro p hp
    unfold balanceOf
    rw [settlement_balances_eq ps hnd]
    exact dictLookup_map_nodup _ _ hnd p hp
  refine ⟨settleLoop (debtorsOf ps) (creditorsOf ps), hcomp, ?_, ?_, ?_, ?_⟩
  · intro nm debt hmem
    have hkey : keyTotal nm (debtorsOf ps) = debt :=
      keyTotal_of_mem_nodup nm debt _ (debtorsOf_fst_nodup ps hnd) hmem
    have hb := (main nm).1
    rw [hkey] at hb
    exact hb
  · intro nm credit hmem
    have hkey : keyTotal nm (creditorsOf ps) = credit :=
      keyTotal_of_mem_nodup nm credit _ (creditorsOf_fst_nodup ps hnd) hmem
    have hb := (main nm).2
    rw [hkey] at hb
    exact hb
  · intro p hp
    have hcntF : (countFrom p.name (settleLoop (debtorsOf ps) (creditorsOf ps)) : ℚ)
        ≤ ((settleLoop (debtorsOf ps) (creditorsOf ps)).length : ℚ) :=
      Nat.cast_le.2 (List.length_filter_le _ _)
    have hcntT : (countTo p.name (settleLoop (debtorsOf ps) (creditorsOf ps)) : ℚ)
        ≤ ((settleLoop (debtorsOf ps) (creditorsOf ps)).length : ℚ) :=
      Nat.cast_le.2 (List.length_filter_le _ _)
    rcases lt_trichotomy (p.amount_spent - exactFairShare ps p) 0 with hb | hb | hb
    · have hmemD := mem_debtorsOf ps hnd p hp hb
      have hkey : keyTotal p.name (debtorsOf ps)
          = -(p.amount_spent - exactFairShare ps p) :=
        keyTotal_of_mem_nodup _ _ _ (debtorsOf_fst_nodup ps hnd) hmemD
      have hFS := (main p.name).1
      rw [hkey] at hFS
      have hnotC : p.name ∉ (creditorsOf ps).map Prod.fst :=
        not_mem_creditorsOf_fst ps hnd p hp (by linarith)
      have hTSfil : (settleLoop (debtorsOf ps) (creditorsOf ps)).filter
          (fun t => t.To == p.name) = [] := by
        rw [List.filter_eq_nil_iff]
        intro t ht
        simp only [beq_iff_eq]
        intro heq
        exact hnotC (heq ▸ (settleLoopF_mem _ _ _ t ht).2)
      have hTS : txnToSum p.name (settleLoop (debtorsOf ps) (creditorsOf ps)) = 0 := by
        unfold txnToSum
        rw [hTSfil]
        rfl
      rw [hlookup p hp, hTS]
      have heq2 : p.amount_spent - exactFairShare ps p
            + txnFromSum p.name (settleLoop (debtorsOf ps) (creditorsOf ps)) - 0
          = txnFromSum p.name (settleLoop (debtorsOf ps) (creditorsOf ps))
            - -(p.amount_spent - exactFairShare ps p) := by ring
      rw [heq2]
      calc |txnFromSum p.name (settleLoop (debtorsOf ps) (creditorsOf ps))
            - -(p.amount_spent - exactFairShare ps p)|
          ≤ (countFrom p.name (settleLoop (debtorsOf ps) (creditorsOf ps)) : ℚ) / 200 := hFS
        _ ≤ ((settleLoop (debtorsOf ps) (creditorsOf ps)).length : ℚ) / 200 := by linarith
    · have hnotD : p.name ∉ (debtorsOf ps).map Prod.fst :=
        not_mem_debtorsOf_fst ps hnd p hp (by linarith)
      have hnotC : p.name ∉ (creditorsOf ps).map Prod.fst :=
        not_mem_creditorsOf_fst ps hnd p hp (by linarith)
      have hFSfil : (settleLoop (debtorsOf ps) (creditorsOf ps)).filter
          (fun t => t.From == p.name) = [] := by
        rw [List.filter_eq_nil_iff]
        intro t ht
        simp only [beq_iff_eq]
        intro heq
        exact hnotD (heq ▸ (settleLoopF_mem _ _ _ t ht).1)
      have hTSfil : (settleLoop (debtorsOf ps) (creditorsOf ps)).filter
          (fun t => t.To == p.name) = [] := by
        rw [List.filter_eq_nil_iff]
        intro t ht
        simp only [beq_iff_eq]
        intro heq
        exact hnotC (heq ▸ (settleLoopF_mem _ _ _ t ht).2)
      have hFS : txnFromSum p.name (settleLoop (debtorsOf ps) (creditorsOf ps)) = 0 := by
        unfold txnFromSum
        rw [hFSfil]
        rfl
      have hTS : txnToSum p.name (settleLoop (debtorsOf ps) (creditorsOf ps)) = 0 := by
        unfold txnToSum
        rw [hTSfil]
        rfl
      rw [hlookup p hp, hFS, hTS, hb]
      simp only [add_zero, sub_zero, abs_zero]
      positivity
    · have hmemC := mem_creditorsOf ps hnd p hp hb
      have hkey : keyTotal p.name (creditorsOf ps)
          = p.amount_spent - exactFairShare ps p :=
        keyTotal_of_mem_nodup _ _ _ (creditorsOf_fst_nodup ps hnd) hmemC
      have hTS := (main p.name).2
      rw [hkey] at hTS
      have hnotD : p.name ∉ (debtorsOf ps).map Prod.fst :=
        not_mem_debtorsOf_fst ps hnd p hp (by linarith)
      have hFSfil : (settleLoop (debtorsOf ps) (creditorsOf ps)).filter
          (fun t => t.From == p.name) = [] := by
        rw [List.filter_eq_nil_iff]
        intro t ht
        simp only [beq_iff_eq]
        intro heq
        exact hnotD (heq ▸ (settleLoopF_mem _ _ _ t ht).1)
      have hFS : txnFromSum p.name (settleLoop (debtorsOf ps) (creditorsOf ps)) = 0 := by
        unfold txnFromSum
        rw [hFSfil]
        rfl
      rw [hlookup p hp, hFS]
      have heq2 : p.amount_spent - exactFairShare ps p + 0
            - txnToSum p.name (settleLoop (debtorsOf ps) (creditorsOf ps))
          = -(txnToSum p.name (settleLoop (debtorsOf ps) (creditorsOf ps))
            - (p.amount_spent - exactFairShare ps p)) := by ring
      rw [heq2, abs_neg]
      calc |txnToSum p.name (settleLoop (debtorsOf ps) (creditorsOf ps))
            - (p.amount_spent - exactFairShare ps p)|
          ≤ (countTo p.name (settleLoop (debtorsOf ps) (creditorsOf ps)) : ℚ) / 200 := hTS
        _ ≤ ((settleLoop (debtorsOf ps) (creditorsOf ps)).length : ℚ) / 200 := by linarith
  · rintro (h | h)
    · rw [h]
      exact settleLoopF_nil_left _ _
    · rw [h]
      cases hD : debtorsOf ps with
      | nil => exact settleLoopF_nil_left _ _
      | cons x ds => exact settleLoopF_nil_right _ _ _

theorem C3_settlement_witness :
    ∃ ts, compute_settlements ([⟨[65], 100, 1, []⟩, ⟨[66], 0, 1, []⟩] : List Participant) = some ts ∧
      (∀ nm debt, (nm, debt) ∈ debtorsOf ([⟨[65], 100, 1, []⟩, ⟨[66], 0, 1, []⟩] : List Participant) →
        |txnFromSum nm ts - debt| ≤ (countFrom nm ts : ℚ) / 200) ∧
      (∀ nm credit, (nm, credit) ∈ creditorsOf ([⟨[65], 100, 1, []⟩, ⟨[66], 0, 1, []⟩] : List Participant) →
        |txnToSum nm ts - credit| ≤ (countTo nm ts : ℚ) / 200) ∧
      (∀ p ∈ ([⟨[65], 100, 1, []⟩, ⟨[66], 0, 1, []⟩] : List Participant),
        |balanceOf ([⟨[65], 100, 1, []⟩, ⟨[66], 0, 1, []⟩] : List Participant) p.name
          + txnFromSum p.name ts - txnToSum p.name ts| ≤ (ts.length : ℚ) / 200) ∧
      ((debtorsOf ([⟨[65], 100, 1, []⟩, ⟨[66], 0, 1, []⟩] : List Participant) = [] ∨
        creditorsOf ([⟨[65], 100, 1, []⟩, ⟨[66], 0, 1, []⟩] : List Participant) = []) → ts = []) :=
  C3_settlement_correct ([⟨[65], 100, 1, []⟩, ⟨[66], 0, 1, []⟩] : List Participant)
    (by with_unfolding_all decide) (by with_unfolding_all decide)
